import Mathlib

/-!
Verification of the dual-engine key-value store: the B+Tree engine of
`bplus_tree.py` and the LSM engine of `lsm_tree.py`.

The Python code is embedded shallowly:
* `dict` / `OrderedDict` values become association lists kept in insertion
  order (`odInsert` models `d[k] = v`: replace in place, else append);
* the WAL file becomes an `Option String` state component (`none` = the
  file does not exist), SSTable files become their JSON contents
  (association lists) held in the newest-first `sstables` list;
* Python string comparison (lexicographic on code points) is modelled by a
  boolean comparison on `String.data`;
* recursive tree procedures are written with an explicit fuel argument so
  that they stay kernel-computable; wrappers pass a fuel that is always
  sufficient (the node count of the tree).
-/

namespace DualKV

/-- Lexicographic comparison of character lists, mirroring Python's string
`<` (code-point lexicographic). -/
def lexLt : List Char → List Char → Bool
  | [], [] => false
  | [], _ :: _ => true
  | _ :: _, [] => false
  | a :: as, b :: bs => if a < b then true else if b < a then false else lexLt as bs

/-- Python `a < b` on strings. -/
def ltB (a b : String) : Bool := lexLt a.data b.data

/-- Python `a <= b` on strings (in the lexicographic total order, `<=` is
`<` or `=`). -/
def leB (a b : String) : Bool := ltB a b || a == b

/-- Python `list.insert(i, a)` (an index past the end appends, as in
Python). -/
def pyInsertAt (i : Nat) (a : α) (l : List α) : List α := l.take i ++ a :: l.drop i

/-! ## LSM engine (`lsm_tree.py`) -/

/-- State of `LSMTree`: the `memtable` as an association list in insertion
order, the `sstables` list newest-first (each SSTable file represented by
its JSON content, an association list), the configured
`max_memtable_size`, and the WAL file content (`none` when `wal.log` does
not exist).  File names and creation timestamps are modelled separately
(`flushName`, `compactName`, `loadExistingSSTables`). -/
structure LSMState where
  memtable : List (String × String)
  sstables : List (List (String × String))
  max_memtable_size : Nat
  wal : Option String

/-- Python `d[k] = v` on a dict held in insertion order: if the key is
present its value is replaced in place, otherwise the pair is appended. -/
def odInsert (m : List (String × String)) (k v : String) : List (String × String) :=
  if k ∈ m.map Prod.fst then m.map (fun p => if p.1 = k then (k, v) else p)
  else m ++ [(k, v)]

/-- Python `d[k]` combined with `k in d` on a dict: the value stored for
`k`, or `none` when the key is absent (keys are unique in a dict, so the
first match is the match). -/
def odGet (k : String) : List (String × String) → Option String
  | [] => none
  | p :: rest => if p.1 = k then some p.2 else odGet k rest

/-- `LSMTree._flush_memtable`: a non-empty memtable is written as a new
SSTable placed at the front (newest) of the list, the memtable is cleared
and the WAL file removed (`os.remove`).  The write of
`sstable_<timestamp>.json` itself is assumed to succeed; the file's name
is modelled by `flushName`. -/
def flushMemtable (s : LSMState) : LSMState :=
  if s.memtable.isEmpty then s
  else { s with sstables := s.memtable :: s.sstables, memtable := [], wal := none }

/-- `LSMTree.insert`: append `key:value\n` to the WAL (creating the file
when absent — mode `'a'`), then upsert into the memtable, then flush when
`len(memtable) >= max_memtable_size`.  The boolean `walFail` says whether
the WAL append raises `IOError`; in that case the method re-raises before
touching the memtable.  The second component is the error raised
(`none` = returned normally). -/
def lsmInsert (walFail : Bool) (s : LSMState) (key value : String) :
    LSMState × Option String :=
  if walFail then (s, some "Failed to write to WAL")
  else
    let s1 : LSMState := { s with wal := some (s.wal.getD "" ++ key ++ ":" ++ value ++ "\n") }
    let s2 : LSMState := { s1 with memtable := odInsert s1.memtable key value }
    if s2.max_memtable_size ≤ s2.memtable.length then (flushMemtable s2, none)
    else (s2, none)

/-- SSTable scan of `LSMTree.get`: walk the newest-first list and return
the first table holding the key. -/
def scanGet (key : String) : List (List (String × String)) → Option String
  | [] => none
  | t :: rest =>
    match odGet key t with
    | some v => some v
    | none => scanGet key rest

/-- `LSMTree.get`: memtable first, then SSTables newest to oldest. -/
def lsmGet (s : LSMState) (key : String) : Option String :=
  match odGet key s.memtable with
  | some v => some v
  | none => scanGet key s.sstables

/-- The comparison `start_key <= key <= end_key` of `range_query`. -/
def inRange (startKey endKey k : String) : Bool := leB startKey k && leB k endKey

/-- `LSMTree.range_query`: matching pairs of the memtable (in insertion
order), then the matching pairs of every SSTable from newest to oldest;
no deduplication and no sorting happens. -/
def lsmRangeQuery (s : LSMState) (startKey endKey : String) : List (String × String) :=
  s.memtable.filter (fun p => inRange startKey endKey p.1)
    ++ (s.sstables.map (fun t => t.filter (fun p => inRange startKey endKey p.1))).flatten

/-- `dict.update(data)` used by `compact`: insert every pair of `t` in
order into the accumulator. -/
def odUpdateTable (acc t : List (String × String)) : List (String × String) :=
  t.foldl (fun m p => odInsert m p.1 p.2) acc

/-- `LSMTree.compact`: with at most one SSTable nothing happens; otherwise
all SSTables are merged oldest-to-newest (newer entries overwrite older
ones), the merged table replaces the whole list as its only element, and
the old files are deleted.  The new file's name is modelled by
`compactName`. -/
def lsmCompact (s : LSMState) : LSMState :=
  if s.sstables.length ≤ 1 then s
  else { s with sstables := [s.sstables.reverse.foldl odUpdateTable []] }

/-! ### WAL recovery (`_recover_from_wal`) -/

/-- The whitespace class of Python's `str.strip()` (the characters with
`str.isspace()` true): ASCII 0x09–0x0D and space, the separator controls
0x1C–0x1F, NEL 0x85, NBSP 0xA0, and the Unicode space separators 0x1680,
0x2000–0x200A, 0x2028, 0x2029, 0x202F, 0x205F, 0x3000. -/
def isPySpace (c : Char) : Bool :=
  decide ((0x09 ≤ c.toNat ∧ c.toNat ≤ 0x0d) ∨ c.toNat = 0x20 ∨
    (0x1c ≤ c.toNat ∧ c.toNat ≤ 0x1f) ∨ c.toNat = 0x85 ∨ c.toNat = 0xa0 ∨
    c.toNat = 0x1680 ∨ (0x2000 ≤ c.toNat ∧ c.toNat ≤ 0x200a) ∨
    c.toNat = 0x2028 ∨ c.toNat = 0x2029 ∨ c.toNat = 0x202f ∨
    c.toNat = 0x205f ∨ c.toNat = 0x3000)

/-- Python `str.strip()`: drop whitespace from both ends. -/
def pyStripChars (l : List Char) : List Char :=
  ((l.dropWhile isPySpace).reverse.dropWhile isPySpace).reverse

/-- Python `line.split(':', 1)`: split at the first colon; `none` when the
line holds no colon (the `ValueError` case, skipped by recovery). -/
def splitColon : List Char → Option (List Char × List Char)
  | [] => none
  | c :: cs =>
    if c = ':' then some ([], cs)
    else
      match splitColon cs with
      | some (a, b) => some (c :: a, b)
      | none => none

/-- Python's universal-newline translation performed by text-mode
`open(..., 'r')` (`newline=None`): a lone `'\r'` and the pair `'\r\n'`
are both turned into `'\n'` in the character stream before any line
splitting.  The boolean records whether the previous character was a
carriage return, so the `'\n'` of a `'\r\n'` pair is not doubled. -/
def univNL : Bool → List Char → List Char
  | _, [] => []
  | prevCr, c :: cs =>
    if c = '\r' then '\n' :: univNL true cs
    else if c = '\n' then
      (if prevCr then univNL false cs else '\n' :: univNL false cs)
    else c :: univNL false cs

/-- Universal-newline translation of a whole stream. -/
def univNewlines (l : List Char) : List Char := univNL false l

/-- The division of the (already newline-translated) stream into lines
done by `for line in f` (followed by `strip`, which removes the trailing
newline): split at every `'\n'`.  A trailing newline yields a final empty
line that the parser then skips, matching Python, which simply stops
there. -/
def splitLinesChars : List Char → List (List Char)
  | [] => [[]]
  | c :: cs =>
    if c = '\n' then [] :: splitLinesChars cs
    else
      match splitLinesChars cs with
      | [] => [[c]]
      | l :: ls => (c :: l) :: ls

/-- One line of WAL recovery: `key, value = line.strip().split(':', 1)`;
`none` models the skipped `ValueError`. -/
def parseWalLine (line : List Char) : Option (String × String) :=
  match splitColon (pyStripChars line) with
  | some (a, b) => some (String.mk a, String.mk b)
  | none => none

/-- Replay of one recovered WAL line into the memtable being rebuilt
(`self.memtable[key] = value`, or `continue` on a malformed line). -/
def recStep (m : List (String × String)) (line : List Char) : List (String × String) :=
  match parseWalLine line with
  | some kv => odInsert m kv.1 kv.2
  | none => m

/-- `LSMTree._recover_from_wal` on the content of an existing WAL file:
the text-mode read translates universal newlines, then every parsable
line is replayed into a fresh memtable, skipping malformed lines. -/
def lsmRecover (content : String) : List (String × String) :=
  (splitLinesChars (univNewlines content.data)).foldl recStep []

/-- Recovery including the `os.path.exists` check: a missing WAL file
leaves the memtable empty. -/
def recoverOpt : Option String → List (String × String)
  | none => []
  | some c => lsmRecover c

/-- The `LSMTree` constructor over existing storage: recover the memtable
from the WAL (which is kept, not deleted) and adopt the SSTable list
reconstructed from the directory. -/
def rebootLSM (maxSize : Nat) (walContent : Option String)
    (tables : List (List (String × String))) : LSMState :=
  { memtable := recoverOpt walContent, sstables := tables,
    max_memtable_size := maxSize, wal := walContent }

/-- A fresh engine over empty storage. -/
def freshLSM (maxSize : Nat) : LSMState := rebootLSM maxSize none []

/-! ### SSTable file naming and reload ordering (`_load_existing_sstables`) -/

/-- Name of a flush-produced snapshot, `sstable_<timestamp>.json`. -/
def flushName (timestamp : Nat) : String :=
  "sstables/sstable_" ++ toString timestamp ++ ".json"

/-- Name of a compaction-produced snapshot, `sstable_compact_<timestamp>.json`. -/
def compactName (timestamp : Nat) : String :=
  "sstables/sstable_compact_" ++ toString timestamp ++ ".json"

/-- Insertion step of a descending lexicographic sort. -/
def insDesc (x : String) : List String → List String
  | [] => [x]
  | y :: ys => if ltB y x then x :: y :: ys else y :: insDesc x ys

/-- `sorted(glob.glob('sstable_*.json'), reverse=True)`: the file names
present in the directory, sorted in descending lexicographic order (both
naming schemes match the glob pattern). -/
def loadExistingSSTables (files : List String) : List String := files.foldr insDesc []

/-! ## Basic lemmas about the ordered-dict model -/

theorem odGet_append (k : String) (m1 m2 : List (String × String)) :
    odGet k (m1 ++ m2) =
      match odGet k m1 with
      | some v => some v
      | none => odGet k m2 := by
  induction m1 with
  | nil => simp [odGet]
  | cons p rest ih =>
    by_cases hp : p.1 = k
    · simp [odGet, hp]
    · simp only [List.cons_append, odGet, if_neg hp]
      exact ih

theorem odGet_not_mem (k : String) (m : List (String × String))
    (h : k ∉ m.map Prod.fst) : odGet k m = none := by
  induction m with
  | nil => rfl
  | cons p rest ih =>
    simp only [List.map_cons, List.mem_cons, not_or] at h
    simp only [odGet, if_neg (fun hp : p.1 = k => h.1 hp.symm)]
    exact ih h.2

theorem odGet_mapReplace (k v : String) (m : List (String × String))
    (h : k ∈ m.map Prod.fst) :
    odGet k (m.map (fun p => if p.1 = k then (k, v) else p)) = some v := by
  induction m with
  | nil => simp at h
  | cons p rest ih =>
    by_cases hp : p.1 = k
    · simp [odGet, hp]
    · simp only [List.map_cons, List.mem_cons] at h
      simp only [List.map_cons, if_neg hp, odGet, if_neg hp]
      exact ih (h.resolve_left (fun he => hp he.symm))

theorem odGet_odInsert_self (m : List (String × String)) (k v : String) :
    odGet k (odInsert m k v) = some v := by
  unfold odInsert
  by_cases h : k ∈ m.map Prod.fst
  · simpa [h] using odGet_mapReplace k v m h
  · simp only [h, if_false, odGet_append, odGet_not_mem k m h, odGet]
    simp

theorem odGet_mapReplace_ne (k v q : String) (m : List (String × String))
    (hq : q ≠ k) :
    odGet q (m.map (fun p => if p.1 = k then (k, v) else p)) = odGet q m := by
  induction m with
  | nil => rfl
  | cons p rest ih =>
    by_cases hp : p.1 = k
    · have hpq : p.1 ≠ q := fun he => hq (hp.symm.trans he).symm
      simp only [List.map_cons, if_pos hp, odGet, if_neg (fun he : k = q => hq he.symm),
        if_neg hpq]
      exact ih
    · simp only [List.map_cons, if_neg hp, odGet]
      by_cases hqp : p.1 = q
      · simp [hqp]
      · simp only [if_neg hqp]
        exact ih

theorem odGet_odInsert_ne (m : List (String × String)) (k v q : String)
    (hq : q ≠ k) : odGet q (odInsert m k v) = odGet q m := by
  unfold odInsert
  by_cases h : k ∈ m.map Prod.fst
  · simpa [h] using odGet_mapReplace_ne k v q m hq
  · simp only [h, if_false, odGet_append]
    cases hg : odGet q m with
    | some v2 => rfl
    | none => simp [odGet, if_neg (fun he : k = q => hq he.symm)]

theorem odInsert_ne_nil (m : List (String × String)) (k v : String) :
    odInsert m k v ≠ [] := by
  unfold odInsert
  by_cases h : k ∈ m.map Prod.fst
  · rw [if_pos h]
    cases m with
    | nil => simp at h
    | cons p rest => simp
  · rw [if_neg h]
    simp

theorem odInsert_length_le (m : List (String × String)) (k v : String) :
    (odInsert m k v).length ≤ m.length + 1 := by
  unfold odInsert
  by_cases h : k ∈ m.map Prod.fst <;> simp [h]

theorem odInsert_keys_subset (m : List (String × String)) (k v q : String)
    (h : q ∈ (odInsert m k v).map Prod.fst) : q = k ∨ q ∈ m.map Prod.fst := by
  unfold odInsert at h
  by_cases hm : k ∈ m.map Prod.fst
  · simp only [hm, if_true, List.map_map, List.mem_map] at h
    obtain ⟨p, hp, he⟩ := h
    by_cases hpk : p.1 = k
    · left
      simp [Function.comp, hpk] at he
      exact he.symm
    · right
      simp only [Function.comp, if_neg hpk] at he
      exact he ▸ List.mem_map_of_mem Prod.fst hp
  · simp only [hm, if_false, List.map_append, List.mem_append] at h
    rcases h with h | h
    · exact Or.inr h
    · simp at h
      exact Or.inl h

/-! ## Retrieval after insert (LSM half of claim C1) -/

theorem lsmGet_insert_self (s : LSMState) (k v : String) :
    lsmGet (lsmInsert false s k v).1 k = some v := by
  have hne := odInsert_ne_nil s.memtable k v
  unfold lsmInsert
  simp only [Bool.false_eq_true, if_false]
  by_cases h : s.max_memtable_size ≤ (odInsert s.memtable k v).length
  · simp only [h, if_pos, flushMemtable]
    by_cases he : (odInsert s.memtable k v).isEmpty
    · exact absurd (by cases hm : odInsert s.memtable k v <;> simp_all [List.isEmpty]) hne
    · simp only [he, Bool.false_eq_true, if_neg, not_false_iff]
      unfold lsmGet
      simp only [odGet, scanGet, odGet_odInsert_self]
  · simp only [h, if_neg, not_false_iff]
    unfold lsmGet
    simp only [odGet_odInsert_self]

/-! ## Claim C2: range query -/

/-- The LSM state reached by `insert("a","1")`, `insert("a","2")` on a
fresh engine with `max_memtable_size = 1` (each insert flushes): two
SSTables both holding `"a"`. -/
def c2State : LSMState :=
  (lsmInsert false (lsmInsert false (freshLSM 1) "a" "1").1 "a" "2").1

/-- C2 counterexample: on `c2State`, `range_query("a","a")` returns the
key `"a"` twice — once per SSTable holding it, newest first — instead of
exactly once with the newest value, so the claim's "each appearing exactly
once" (and with it newest-wins deduplication) fails on the code, which
never deduplicates across sources. -/
theorem C2_counterexample :
    lsmRangeQuery c2State "a" "a" = [("a", "2"), ("a", "1")] ∧
    ¬ ((lsmRangeQuery c2State "a" "a").map Prod.fst).Nodup := by decide

/-- C2 (corrected).  `range_query(start, end)` returns exactly the pairs
`(k, v)` with `start ≤ k ≤ end` (Python string comparison) occurring in
the memtable or in some SSTable — concatenated source by source, memtable
first, then each SSTable newest to oldest, with a key held by several
sources appearing once per source and no global sort. -/
theorem C2_range_membership (s : LSMState) (a b k v : String) :
    (k, v) ∈ lsmRangeQuery s a b ↔
      leB a k = true ∧ leB k b = true ∧
        ((k, v) ∈ s.memtable ∨ ∃ t ∈ s.sstables, (k, v) ∈ t) := by
  unfold lsmRangeQuery
  constructor
  · intro h
    rcases List.mem_append.mp h with h | h
    · have := List.mem_filter.mp h
      have hr : inRange a b k = true := this.2
      simp only [inRange, Bool.and_eq_true] at hr
      exact ⟨hr.1, hr.2, Or.inl this.1⟩
    · rcases List.mem_flatten.mp h with ⟨l, hl, hkv⟩
      rcases List.mem_map.mp hl with ⟨t, ht, rfl⟩
      have := List.mem_filter.mp hkv
      have hr : inRange a b k = true := this.2
      simp only [inRange, Bool.and_eq_true] at hr
      exact ⟨hr.1, hr.2, Or.inr ⟨t, ht, this.1⟩⟩
  · rintro ⟨h1, h2, hm | ⟨t, ht, hkv⟩⟩
    · exact List.mem_append.mpr (Or.inl (List.mem_filter.mpr
        ⟨hm, by simp [inRange, h1, h2]⟩))
    · exact List.mem_append.mpr (Or.inr (List.mem_flatten.mpr
        ⟨t.filter (fun p => inRange a b p.1),
          List.mem_map.mpr ⟨t, ht, rfl⟩,
          List.mem_filter.mpr ⟨hkv, by simp [inRange, h1, h2]⟩⟩))

/-! ## Claim C3: flush behaviour -/

/-- C3 counterexample: on a fresh engine (no WAL file) an insert that
leaves the memtable below the threshold nevertheless creates the WAL file
(`open(..., 'a')`), so "changes neither the SSTable list nor the WAL's
existence" fails: the WAL goes from absent to present. -/
theorem C3_counterexample :
    (freshLSM 5).wal = none ∧
    (odInsert (freshLSM 5).memtable "a" "b").length < (freshLSM 5).max_memtable_size ∧
    (lsmInsert false (freshLSM 5) "a" "b").1.sstables = (freshLSM 5).sstables ∧
    (lsmInsert false (freshLSM 5) "a" "b").1.wal ≠ none := by decide

/-- The LSM engine state after the first `n` of the ten inserts
`insert(str(i), "value_" + str(i))`, `i = 0..9`, on a fresh engine with
`max_memtable_size = 5`. -/
def lsmAfterN (n : Nat) : LSMState :=
  (List.range n).foldl
    (fun st i => (lsmInsert false st (toString i) ("value_" ++ toString i)).1)
    (freshLSM 5)

/-- C3 (corrected).  An insert that brings the memtable to
`max_memtable_size` entries flushes: the whole post-upsert memtable
becomes the new front (newest) SSTable, the memtable is left empty and
the WAL file is removed.  An insert that leaves the memtable below the
threshold leaves the SSTable list unchanged and does not remove the WAL —
it appends one `key:value` line, creating the WAL file when absent.  With
`max_memtable_size = 5`, inserting keys `"0".."9"` flushes exactly after
the 5th and the 10th insert, and `get("3")` after the first flush reads
the snapshot (the memtable is empty). -/
theorem C3_flush_behavior :
    (∀ (s : LSMState) (k v : String),
      (s.max_memtable_size ≤ (odInsert s.memtable k v).length →
        (lsmInsert false s k v).1.sstables = odInsert s.memtable k v :: s.sstables ∧
        (lsmInsert false s k v).1.memtable = [] ∧
        (lsmInsert false s k v).1.wal = none) ∧
      ((odInsert s.memtable k v).length < s.max_memtable_size →
        (lsmInsert false s k v).1.sstables = s.sstables ∧
        (lsmInsert false s k v).1.memtable = odInsert s.memtable k v ∧
        (lsmInsert false s k v).1.wal = some (s.wal.getD "" ++ k ++ ":" ++ v ++ "\n"))) ∧
    (List.range 10).map (fun n => (lsmAfterN (n + 1)).sstables.length) =
      [0, 0, 0, 0, 1, 1, 1, 1, 1, 2] ∧
    lsmGet (lsmAfterN 5) "3" = some "value_3" ∧
    (lsmAfterN 5).memtable = [] := by
  refine ⟨fun s k v => ⟨fun hge => ?_, fun hlt => ?_⟩, by decide, by decide, by decide⟩
  · have hne := odInsert_ne_nil s.memtable k v
    unfold lsmInsert
    simp only [Bool.false_eq_true, if_false, hge, if_pos, flushMemtable]
    by_cases he : (odInsert s.memtable k v).isEmpty
    · exact absurd (by cases hm : odInsert s.memtable k v <;> simp_all [List.isEmpty]) hne
    · simp only [he, Bool.false_eq_true, if_neg, not_false_iff]
      exact ⟨trivial, trivial, trivial⟩
  · unfold lsmInsert
    simp only [Bool.false_eq_true, if_false, if_neg (by omega : ¬ s.max_memtable_size ≤ (odInsert s.memtable k v).length)]
    exact ⟨trivial, trivial, trivial⟩

/-- Witness for C3 at a concrete input: an insert that reaches the
threshold on a one-entry engine flushes. -/
theorem C3_witness :
    ((freshLSM 1).max_memtable_size ≤ (odInsert (freshLSM 1).memtable "a" "b").length) ∧
    (lsmInsert false (freshLSM 1) "a" "b").1.sstables =
      odInsert (freshLSM 1).memtable "a" "b" :: (freshLSM 1).sstables ∧
    (lsmInsert false (freshLSM 1) "a" "b").1.memtable = [] ∧
    (lsmInsert false (freshLSM 1) "a" "b").1.wal = none :=
  ⟨by decide, (C3_flush_behavior.1 (freshLSM 1) "a" "b").1 (by decide)⟩

/-! ## Claim C4: WAL round trip -/

/-- State equation for a non-flushing insert. -/
theorem lsmInsert_below (s : LSMState) (k v : String)
    (h : (odInsert s.memtable k v).length < s.max_memtable_size) :
    (lsmInsert false s k v).1 =
      { s with memtable := odInsert s.memtable k v,
               wal := some (s.wal.getD "" ++ k ++ ":" ++ v ++ "\n") } := by
  unfold lsmInsert
  simp only [Bool.false_eq_true, if_false,
    if_neg (by omega : ¬ s.max_memtable_size ≤ (odInsert s.memtable k v).length)]

/-- Key condition under which a WAL line replays faithfully: no colon
(the first colon is the recovery delimiter), no newline and no carriage
return (universal-newline reading breaks the line at either), and no
leading `str.strip()` whitespace. -/
def okKeyB (k : String) : Bool :=
  k.data.all (fun c => !(c == ':') && (!(c == '\n') && !(c == '\r'))) &&
  (match k.data with
   | [] => true
   | c :: _ => !isPySpace c)

/-- Value condition: no newline, no carriage return, no trailing
`str.strip()` whitespace. -/
def okValB (v : String) : Bool :=
  v.data.all (fun c => !(c == '\n') && !(c == '\r')) &&
  (match v.data.reverse with
   | [] => true
   | c :: _ => !isPySpace c)

/-- The characters appended to the WAL by a sequence of inserts: one
`key:value\n` line per insert, in order. -/
def walData : List (String × String) → List Char
  | [] => []
  | p :: rest => (p.1.data ++ ':' :: p.2.data) ++ '\n' :: walData rest

theorem walData_append_single (a : List (String × String)) (p : String × String) :
    walData (a ++ [p]) = walData a ++ ((p.1.data ++ ':' :: p.2.data) ++ ['\n']) := by
  induction a with
  | nil => simp [walData]
  | cons q rest ih => simp [walData, ih]

theorem splitColon_encode (kd vd : List Char) (h : ∀ c ∈ kd, (c == ':') = false) :
    splitColon (kd ++ ':' :: vd) = some (kd, vd) := by
  induction kd with
  | nil => simp [splitColon]
  | cons c rest ih =>
    have hc : c ≠ ':' := by
      have := h c (List.mem_cons_self c rest)
      simpa using this
    simp only [List.cons_append, splitColon, if_neg hc, List.append_eq]
    rw [ih (fun d hd => h d (List.mem_cons_of_mem c hd))]

theorem dropWhile_isPySpace_eq_self (l : List Char)
    (h : ∀ c, l.head? = some c → isPySpace c = false) :
    l.dropWhile isPySpace = l := by
  cases l with
  | nil => rfl
  | cons a rest =>
    have := h a rfl
    simp [List.dropWhile_cons, this]

theorem pyStripChars_eq_self (l : List Char)
    (hh : ∀ c, l.head? = some c → isPySpace c = false)
    (hb : ∀ c, l.reverse.head? = some c → isPySpace c = false) :
    pyStripChars l = l := by
  unfold pyStripChars
  rw [dropWhile_isPySpace_eq_self l hh, dropWhile_isPySpace_eq_self l.reverse hb,
    List.reverse_reverse]

theorem splitLines_line (line rest : List Char)
    (h : ∀ c ∈ line, (c == '\n') = false) :
    splitLinesChars (line ++ '\n' :: rest) = line :: splitLinesChars rest := by
  induction line with
  | nil => simp [splitLinesChars]
  | cons c cl ih =>
    have hc : c ≠ '\n' := by
      have := h c (List.mem_cons_self c cl)
      simpa using this
    simp only [List.cons_append, splitLinesChars, if_neg hc, List.append_eq]
    rw [ih (fun d hd => h d (List.mem_cons_of_mem c hd))]

theorem univNL_no_cr (l : List Char) (h : ∀ c ∈ l, c ≠ '\r') :
    univNL false l = l := by
  induction l with
  | nil => rfl
  | cons c cs ih =>
    have hc : c ≠ '\r' := h c (List.mem_cons_self c cs)
    have ihr := ih (fun d hd => h d (List.mem_cons_of_mem c hd))
    by_cases hn : c = '\n'
    · subst hn
      rw [show univNL false ('\n' :: cs) = '\n' :: univNL false cs from rfl, ihr]
    · simp [univNL, hc, hn, ihr]

theorem walData_no_cr (ops : List (String × String))
    (hok : ∀ p ∈ ops, okKeyB p.1 = true ∧ okValB p.2 = true) :
    ∀ c ∈ walData ops, c ≠ '\r' := by
  induction ops with
  | nil => intro c hc; simp [walData] at hc
  | cons p rest ih =>
    intro c hc
    have hpk := (hok p (List.mem_cons_self p rest)).1
    have hpv := (hok p (List.mem_cons_self p rest)).2
    simp only [okKeyB, Bool.and_eq_true, List.all_eq_true] at hpk
    simp only [okValB, Bool.and_eq_true, List.all_eq_true] at hpv
    simp only [walData] at hc
    rcases List.mem_append.mp hc with hc | hc
    · rcases List.mem_append.mp hc with hc | hc
      · have h1 := hpk.1 c hc
        simp only [Bool.and_eq_true] at h1
        simpa using h1.2.2
      · rcases List.mem_cons.mp hc with rfl | hc
        · decide
        · have h2 := hpv.1 c hc
          simp only [Bool.and_eq_true] at h2
          simpa using h2.2
    · rcases List.mem_cons.mp hc with rfl | hc
      · decide
      · exact ih (fun q hq => hok q (List.mem_cons_of_mem p hq)) c hc

theorem parseWalLine_encode (k v : String) (hk : okKeyB k = true)
    (hv : okValB v = true) :
    parseWalLine (k.data ++ ':' :: v.data) = some (k, v) := by
  simp only [okKeyB, Bool.and_eq_true, List.all_eq_true] at hk
  simp only [okValB, Bool.and_eq_true, List.all_eq_true] at hv
  have hstrip : pyStripChars (k.data ++ ':' :: v.data) = k.data ++ ':' :: v.data := by
    apply pyStripChars_eq_self
    · intro c hc
      cases hkd : k.data with
      | nil =>
        rw [hkd] at hc
        simp only [List.nil_append, List.head?] at hc
        cases hc
        decide
      | cons a rest =>
        rw [hkd] at hc
        simp only [List.cons_append, List.head?] at hc
        cases hc
        have := hk.2
        rw [hkd] at this
        simpa using this
    · intro c hc
      rw [List.reverse_append, List.reverse_cons] at hc
      cases hvd : v.data.reverse with
      | nil =>
        rw [hvd] at hc
        simp only [List.nil_append, List.cons_append, List.head?] at hc
        cases hc
        decide
      | cons a rest =>
        rw [hvd] at hc
        simp only [List.cons_append, List.head?] at hc
        cases hc
        have := hv.2
        rw [hvd] at this
        simpa using this
  have hnc : ∀ c ∈ k.data, (c == ':') = false := by
    intro c hc
    have h1 := hk.1 c hc
    simp only [Bool.and_eq_true] at h1
    simpa using h1.1
  unfold parseWalLine
  rw [hstrip, splitColon_encode k.data v.data hnc]

theorem recStep_encode (m : List (String × String)) (k v : String)
    (hk : okKeyB k = true) (hv : okValB v = true) :
    recStep m (k.data ++ ':' :: v.data) = odInsert m k v := by
  unfold recStep
  rw [parseWalLine_encode k v hk hv]

theorem recover_walData (ops : List (String × String)) :
    ∀ m0, (∀ p ∈ ops, okKeyB p.1 = true ∧ okValB p.2 = true) →
      (splitLinesChars (walData ops)).foldl recStep m0 =
        ops.foldl (fun m p => odInsert m p.1 p.2) m0 := by
  induction ops with
  | nil => intro m0 _; rfl
  | cons p rest ih =>
    intro m0 hok
    have hpk := (hok p (List.mem_cons_self p rest)).1
    have hpv := (hok p (List.mem_cons_self p rest)).2
    simp only [okKeyB, Bool.and_eq_true, List.all_eq_true] at hpk
    simp only [okValB, Bool.and_eq_true, List.all_eq_true] at hpv
    have hline : ∀ c ∈ p.1.data ++ ':' :: p.2.data, (c == '\n') = false := by
      intro c hc
      rcases List.mem_append.mp hc with hc | hc
      · have h1 := hpk.1 c hc
        simp only [Bool.and_eq_true] at h1
        simpa using h1.2.1
      · rcases List.mem_cons.mp hc with rfl | hc
        · decide
        · have h2 := hpv.1 c hc
          simp only [Bool.and_eq_true] at h2
          simpa using h2.1
    show (splitLinesChars ((p.1.data ++ ':' :: p.2.data) ++ '\n' :: walData rest)).foldl
        recStep m0 = _
    rw [splitLines_line _ _ hline]
    simp only [List.foldl_cons]
    rw [recStep_encode m0 p.1 p.2 (hok p (List.mem_cons_self p rest)).1
      (hok p (List.mem_cons_self p rest)).2]
    exact ih (odInsert m0 p.1 p.2) (fun q hq => hok q (List.mem_cons_of_mem p hq))

/-- The sequence of `insert` calls made between the last flush and the
crash. -/
def foldInserts (ops : List (String × String)) (s : LSMState) : LSMState :=
  ops.foldl (fun st p => (lsmInsert false st p.1 p.2).1) s

theorem recoverOpt_eq (w : Option String) :
    recoverOpt w = (splitLinesChars (univNewlines (w.getD "").data)).foldl recStep [] := by
  cases w <;> rfl

/-- Field equations for a non-flushing insert, read off `lsmInsert_below`. -/
theorem lsmInsert_below_fields (s : LSMState) (k v : String)
    (h : (odInsert s.memtable k v).length < s.max_memtable_size) :
    (lsmInsert false s k v).1.memtable = odInsert s.memtable k v ∧
    (lsmInsert false s k v).1.wal = some (s.wal.getD "" ++ k ++ ":" ++ v ++ "\n") ∧
    (lsmInsert false s k v).1.sstables = s.sstables ∧
    (lsmInsert false s k v).1.max_memtable_size = s.max_memtable_size := by
  rw [lsmInsert_below s k v h]
  exact ⟨rfl, rfl, rfl, rfl⟩

theorem foldInserts_inv (ops : List (String × String)) :
    ∀ (s : LSMState) (done : List (String × String)),
      (s.wal.getD "").data = walData done →
      s.memtable.length + ops.length < s.max_memtable_size →
      (foldInserts ops s).memtable =
        ops.foldl (fun m p => odInsert m p.1 p.2) s.memtable ∧
      ((foldInserts ops s).wal.getD "").data = walData (done ++ ops) ∧
      (foldInserts ops s).max_memtable_size = s.max_memtable_size := by
  induction ops with
  | nil =>
    intro s done hw _
    exact ⟨rfl, by simpa using hw, rfl⟩
  | cons p rest ih =>
    intro s done hw hlen
    have hlt : (odInsert s.memtable p.1 p.2).length < s.max_memtable_size := by
      have := odInsert_length_le s.memtable p.1 p.2
      simp only [List.length_cons] at hlen
      omega
    obtain ⟨hm2, hw2, _, hmax2⟩ := lsmInsert_below_fields s p.1 p.2 hlt
    have hstep : foldInserts (p :: rest) s = foldInserts rest (lsmInsert false s p.1 p.2).1 := rfl
    have hwd : (((lsmInsert false s p.1 p.2).1).wal.getD "").data = walData (done ++ [p]) := by
      rw [hw2]
      show (s.wal.getD "" ++ p.1 ++ ":" ++ p.2 ++ "\n").data = walData (done ++ [p])
      rw [walData_append_single, ← hw]
      simp [String.data_append, List.append_assoc]
    have hlen2 : (lsmInsert false s p.1 p.2).1.memtable.length + rest.length <
        (lsmInsert false s p.1 p.2).1.max_memtable_size := by
      rw [hm2, hmax2]
      have := odInsert_length_le s.memtable p.1 p.2
      simp only [List.length_cons] at hlen
      omega
    have hres := ih ((lsmInsert false s p.1 p.2).1) (done ++ [p]) hwd hlen2
    refine ⟨?_, ?_, ?_⟩
    · rw [hstep, hres.1, hm2]
      simp [List.foldl_cons]
    · rw [hstep, hres.2.1]
      simp
    · rw [hstep, hres.2.2, hmax2]

/-- C4 counterexample state: the key `"a:b"` (accepted by `insert`)
breaks the round trip — the WAL line `a:b:c` is split at its first colon
on recovery. -/
def c4Bad : LSMState := (lsmInsert false (freshLSM 5) "a:b" "c").1

/-- Second counterexample state: a carriage return inside the key; the
universal-newline read breaks the WAL entry into two lines, `a` (skipped,
no colon) and `b:c`. -/
def c4BadCr : LSMState := (lsmInsert false (freshLSM 5) "a\rb" "c").1

/-- Third counterexample state: a key starting with a no-break space,
which `strip()` removes on recovery. -/
def c4BadNbsp : LSMState := (lsmInsert false (freshLSM 5) "\xa0a" "c").1

/-- C4 counterexample: keys accepted by `insert` whose WAL lines do not
replay to the pre-crash memtable — a colon in the key shifts the split
point, a carriage return splits the entry into two lines, and leading
no-break space is stripped. -/
theorem C4_counterexample :
    (c4Bad.memtable = [("a:b", "c")] ∧
      recoverOpt c4Bad.wal = [("a", "b:c")] ∧
      recoverOpt c4Bad.wal ≠ c4Bad.memtable) ∧
    (c4BadCr.memtable = [("a\rb", "c")] ∧
      recoverOpt c4BadCr.wal = [("b", "c")] ∧
      recoverOpt c4BadCr.wal ≠ c4BadCr.memtable) ∧
    (c4BadNbsp.memtable = [("\xa0a", "c")] ∧
      recoverOpt c4BadNbsp.wal = [("a", "c")] ∧
      recoverOpt c4BadNbsp.wal ≠ c4BadNbsp.memtable) := by decide

/-- C4 (corrected).  Starting from a just-flushed engine (empty memtable,
no WAL) over arbitrary storage, run any sequence of inserts that stays
below the flush threshold and in which every key is free of colons,
newlines and leading whitespace and every value is free of newlines and
trailing whitespace.  Constructing a fresh engine over the surviving
storage then replays the WAL into a memtable equal to the pre-crash
memtable.  (Keys with colons or newlines, or whitespace at the stripped
ends, are corrupted by the `strip()`/first-colon line format, as the
counterexample shows.) -/
theorem C4_wal_roundtrip (ops : List (String × String)) (maxSize : Nat)
    (tables : List (List (String × String)))
    (hok : ∀ p ∈ ops, okKeyB p.1 = true ∧ okValB p.2 = true)
    (hlen : ops.length < maxSize) :
    (rebootLSM maxSize (foldInserts ops (rebootLSM maxSize none tables)).wal
        (foldInserts ops (rebootLSM maxSize none tables)).sstables).memtable =
      (foldInserts ops (rebootLSM maxSize none tables)).memtable := by
  have hinv := foldInserts_inv ops (rebootLSM maxSize none tables) [] rfl
    (by show ([] : List (String × String)).length + ops.length < maxSize; simpa using hlen)
  show recoverOpt (foldInserts ops (rebootLSM maxSize none tables)).wal = _
  rw [recoverOpt_eq, hinv.2.1]
  simp only [List.nil_append]
  rw [show univNewlines (walData ops) = walData ops from
    univNL_no_cr (walData ops) (walData_no_cr ops hok)]
  rw [recover_walData ops [] hok]
  rw [hinv.1]
  rfl

/-- Witness for C4 at a concrete input. -/
theorem C4_witness :
    (∀ p ∈ [("a", "1"), ("b", "2")], okKeyB p.1 = true ∧ okValB p.2 = true) ∧
    ([("a", "1"), ("b", "2")] : List (String × String)).length < 5 ∧
    (rebootLSM 5 (foldInserts [("a", "1"), ("b", "2")] (rebootLSM 5 none [])).wal
        (foldInserts [("a", "1"), ("b", "2")] (rebootLSM 5 none [])).sstables).memtable =
      (foldInserts [("a", "1"), ("b", "2")] (rebootLSM 5 none [])).memtable :=
  ⟨by decide, by decide, C4_wal_roundtrip [("a", "1"), ("b", "2")] 5 [] (by decide) (by decide)⟩

/-! ## Claim C6: WAL-append failure leaves the state untouched -/

/-- C6 (confirmed).  If the WAL append performed by `insert(k, v)` fails,
the call raises `IOError("Failed to write to WAL: ...")` and the engine
state — memtable, SSTable list, everything — is exactly as before the
call: the re-raise happens before the memtable upsert and the flush
check. -/
theorem C6_wal_failure_atomic (s : LSMState) (k v : String) :
    (lsmInsert true s k v).2 = some "Failed to write to WAL" ∧
    (lsmInsert true s k v).1 = s :=
  ⟨rfl, rfl⟩

/-! ## Claim C10: the memtable stays strictly below the threshold -/

/-- C10 (confirmed).  With `max_memtable_size ≥ 1`, every `insert` call
that returns without raising leaves strictly fewer than
`max_memtable_size` entries in the memtable: an insert that reaches the
threshold flushes (emptying the memtable), any other insert was already
below it. -/
theorem C10_memtable_bound (b : Bool) (s : LSMState) (k v : String)
    (hmax : 1 ≤ s.max_memtable_size)
    (hok : (lsmInsert b s k v).2 = none) :
    (lsmInsert b s k v).1.memtable.length < s.max_memtable_size := by
  cases b
  · unfold lsmInsert at hok ⊢
    simp only [Bool.false_eq_true, if_false] at hok ⊢
    by_cases h : s.max_memtable_size ≤ (odInsert s.memtable k v).length
    · simp only [h, if_pos, flushMemtable]
      by_cases he : (odInsert s.memtable k v).isEmpty
      · have : odInsert s.memtable k v = [] := by
          cases hm : odInsert s.memtable k v
          · rfl
          · rw [hm] at he; simp [List.isEmpty] at he
        exact absurd this (odInsert_ne_nil s.memtable k v)
      · simp only [he, if_neg, Bool.false_eq_true, not_false_iff]
        simpa using hmax
    · simp only [h, if_neg, not_false_iff]
      omega
  · simp [lsmInsert] at hok

/-! ## Claim C8: compaction -/

theorem odGet_odUpdateTable (k : String) (t : List (String × String))
    (hnd : (t.map Prod.fst).Nodup) :
    ∀ acc, odGet k (odUpdateTable acc t) =
      match odGet k t with
      | some v => some v
      | none => odGet k acc := by
  induction t with
  | nil => intro acc; rfl
  | cons p rest ih =>
    intro acc
    simp only [List.map_cons, List.nodup_cons] at hnd
    have : odUpdateTable acc (p :: rest) = odUpdateTable (odInsert acc p.1 p.2) rest := rfl
    rw [this, ih hnd.2]
    by_cases hp : p.1 = k
    · have hrest : odGet k rest = none := by
        apply odGet_not_mem
        intro hmem
        exact hnd.1 (hp ▸ hmem)
      simp only [odGet, if_pos hp, hrest]
      rw [hp]
      exact odGet_odInsert_self acc k p.2
    · simp only [odGet, if_neg hp]
      cases hg : odGet k rest with
      | some v => rfl
      | none => simp only [odGet_odInsert_ne acc p.1 p.2 k (fun he => hp he.symm)]

theorem merged_eq_scan (k : String) (ts : List (List (String × String)))
    (hnd : ∀ t ∈ ts, (t.map Prod.fst).Nodup) :
    odGet k (ts.reverse.foldl odUpdateTable []) = scanGet k ts := by
  induction ts with
  | nil => rfl
  | cons t rest ih =>
    have hrev : (t :: rest).reverse = rest.reverse ++ [t] := by simp
    rw [hrev, List.foldl_append]
    have hfold : List.foldl odUpdateTable (List.foldl odUpdateTable [] rest.reverse) [t] =
        odUpdateTable (List.foldl odUpdateTable [] rest.reverse) t := rfl
    rw [hfold, odGet_odUpdateTable k t (hnd t (List.mem_cons_self t rest))]
    rw [ih (fun u hu => hnd u (List.mem_cons_of_mem t hu))]
    cases hg : odGet k t with
    | some v => simp only [scanGet, hg]
    | none => simp only [scanGet, hg]

/-- C8 counterexample: on an engine with no snapshots (reachable: a fresh
engine before any flush), `compact()` is a no-op and zero snapshots
remain, not "exactly one". -/
theorem C8_counterexample :
    (freshLSM 5).sstables.length = 0 ∧
    (lsmCompact (freshLSM 5)).sstables.length ≠ 1 := by decide

/-- C8 (corrected).  Compaction preserves `get` for every key (so in
particular for every key present in a snapshot, the value read before
compaction): the oldest-to-newest merge gives each key the value of the
newest SSTable holding it, exactly as the newest-to-oldest scan of `get`.
Exactly one snapshot remains whenever at least one existed before the
call; compacting an empty snapshot list leaves it empty.  The hypothesis
that every SSTable has pairwise distinct keys reflects that SSTable files
are JSON objects (`json.load` yields a dict). -/
theorem C8_compaction_preserving (s : LSMState)
    (hnd : ∀ t ∈ s.sstables, (t.map Prod.fst).Nodup) :
    (∀ k, lsmGet (lsmCompact s) k = lsmGet s k) ∧
    (1 ≤ s.sstables.length → (lsmCompact s).sstables.length = 1) := by
  by_cases hlen : s.sstables.length ≤ 1
  · unfold lsmCompact
    rw [if_pos hlen]
    exact ⟨fun k => rfl, fun h1 => by omega⟩
  · unfold lsmCompact
    rw [if_neg hlen]
    constructor
    · intro k
      unfold lsmGet
      cases hm : odGet k s.memtable with
      | some v => rfl
      | none =>
        show scanGet k [s.sstables.reverse.foldl odUpdateTable []] = scanGet k s.sstables
        have := merged_eq_scan k s.sstables hnd
        simp only [scanGet, this]
        cases hsc : scanGet k s.sstables <;> rfl
    · intro h1
      rfl

/-- The LSM state with two snapshots reached by two flushing inserts
(`max_memtable_size = 1`). -/
def c8State : LSMState :=
  (lsmInsert false (lsmInsert false (freshLSM 1) "a" "1").1 "b" "2").1

/-- Witness for C8 at a concrete input. -/
theorem C8_witness :
    (∀ t ∈ c8State.sstables, (t.map Prod.fst).Nodup) ∧
    (lsmGet (lsmCompact c8State) "a" = lsmGet c8State "a" ∧
      (1 ≤ c8State.sstables.length → (lsmCompact c8State).sstables.length = 1)) :=
  ⟨by decide, ⟨(C8_compaction_preserving c8State (by decide)).1 "a",
    (C8_compaction_preserving c8State (by decide)).2⟩⟩

/-! ## Claim C9: SSTable list reconstruction at startup -/

/-- C9 (code bug).  `_load_existing_sstables` sorts file names in
descending lexicographic order.  A compaction-produced snapshot is named
`sstable_compact_<ts>.json`, and `'c' > '9'` in code points, so such a
file sorts ahead of every flush-produced `sstable_<ts>.json` file no
matter the timestamps: with a compacted snapshot created at
1700000000000 and a newer flushed snapshot created at 1700000111111, the
reconstructed list puts the compacted (older) snapshot first, not the
creation-time-descending order the spec requires. -/
theorem C9_reload_order :
    loadExistingSSTables [flushName 1700000111111, compactName 1700000000000] =
      [compactName 1700000000000, flushName 1700000111111] ∧
    loadExistingSSTables [flushName 1700000111111, compactName 1700000000000] ≠
      [flushName 1700000111111, compactName 1700000000000] := by decide

/-- Witness for C10 at a concrete input. -/
theorem C10_witness :
    1 ≤ (freshLSM 5).max_memtable_size ∧
    (lsmInsert false (freshLSM 5) "a" "b").1.memtable.length <
      (freshLSM 5).max_memtable_size :=
  ⟨by decide, C10_memtable_bound false (freshLSM 5) "a" "b" (by decide) (by decide)⟩

/-! ## B+Tree engine (`bplus_tree.py`)

A `Node` with `is_leaf = True` holds parallel `keys`/`values` lists; an
internal node holds `keys` and `children`.  The leaf sibling link `next`
is never read by `insert` or `get` (only written by `_split_child` and
read by `range_query`), so the tree model omits it; the pointer-level
model `PNode`/`splitChildP` below covers the link behaviour of
`_split_child` for claim C7.  Recursive procedures take explicit fuel
(always called with the node count `bsize`, which bounds every descent);
an out-of-range child access, which would raise `IndexError` in Python,
is unreachable for structurally well-formed trees (`structOk`). -/

inductive BNode where
  | leaf (ks vs : List String) : BNode
  | node (ks : List String) (cs : List BNode) : BNode

/-- `len(node.keys)`. -/
def keysLen : BNode → Nat
  | .leaf ks _ => ks.length
  | .node ks _ => ks.length

mutual
/-- Number of nodes of the tree (the fuel bound for every descent). -/
def bsize : BNode → Nat
  | .leaf _ _ => 1
  | .node _ cs => 1 + bsizeL cs
def bsizeL : List BNode → Nat
  | [] => 0
  | c :: cs => bsize c + bsizeL cs
end

/-- The scan `while index < len(keys) and key > keys[index]: index += 1`
used by `_insert_non_full`, the leaf case of `_search`, and
`_delete_from_internal`: the first index whose key is `>= key`. -/
def lowerIdx (key : String) : List String → Nat
  | [] => 0
  | s :: rest => if ltB s key then 1 + lowerIdx key rest else 0

/-- The scan `while index < len(keys) and key >= keys[index]: index += 1`
used by the internal case of `_search`: the first index whose key is
`> key`. -/
def upperIdx (key : String) : List String → Nat
  | [] => 0
  | s :: rest => if leB s key then 1 + upperIdx key rest else 0

/-- The node surgery of `_split_child` on the full child: the returned
triple is `(middle_key, updated child, new_node)`; `split_point =
len(keys) // 2`.  A leaf keeps the lower half of keys/values and the new
right node takes the upper half (the middle key stays in the right
node); an internal node keeps `keys[:sp]` and `children[:sp+1]` and the
new node takes `keys[sp+1:]` and `children[sp+1:]` (the middle key is
promoted, not kept). -/
def splitResult : BNode → String × BNode × BNode
  | .leaf ks vs =>
    (ks.getD (ks.length / 2) "",
     .leaf (ks.take (ks.length / 2)) (vs.take (ks.length / 2)),
     .leaf (ks.drop (ks.length / 2)) (vs.drop (ks.length / 2)))
  | .node ks cs =>
    (ks.getD (ks.length / 2) "",
     .node (ks.take (ks.length / 2)) (cs.take (ks.length / 2 + 1)),
     .node (ks.drop (ks.length / 2 + 1)) (cs.drop (ks.length / 2 + 1)))

/-- `_insert_non_full`.  At a leaf, insert key and value at the first
position whose key is `>= key`.  At an internal node, pick the child at
`lowerIdx`; if it is full (`len(keys) == max_keys`), split it first —
the parent gains the middle key at `index` and the new right node at
`index + 1` — and re-aim at the right half when `key > middle`; then
recurse.  Fuel `0` at an internal node returns the node unchanged
(unreachable when the fuel is at least `bsize`). -/
def insertNonFullF (maxKeys : Nat) (key value : String) : Nat → BNode → BNode
  | _, .leaf ks vs =>
    .leaf (pyInsertAt (lowerIdx key ks) key ks) (pyInsertAt (lowerIdx key ks) value vs)
  | 0, .node ks cs => .node ks cs
  | fuel + 1, .node ks cs =>
    let i := lowerIdx key ks
    let c := cs.getD i (.leaf [] [])
    if keysLen c = maxKeys then
      let r := splitResult c
      let ks2 := pyInsertAt i r.1 ks
      if ltB r.1 key then
        .node ks2 (pyInsertAt (i + 1) (insertNonFullF maxKeys key value fuel r.2.2) (cs.set i r.2.1))
      else
        .node ks2 (pyInsertAt (i + 1) r.2.2 (cs.set i (insertNonFullF maxKeys key value fuel r.2.1)))
    else
      .node ks (cs.set i (insertNonFullF maxKeys key value fuel c))

/-- `BPlusTree.insert`: when the root is full, split it first (the new
root holds the single middle key and the two halves), then insert into
the non-full tree. -/
def bptInsert (maxKeys : Nat) (t : BNode) (key value : String) : BNode :=
  if keysLen t = maxKeys then
    let r := splitResult t
    insertNonFullF maxKeys key value (bsize (BNode.node [r.1] [r.2.1, r.2.2]))
      (.node [r.1] [r.2.1, r.2.2])
  else insertNonFullF maxKeys key value (bsize t) t

/-- `_search`: at an internal node descend into the child at `upperIdx`
(the scan uses `>=`); at a leaf return the value at the exact-match
position, else `None`. -/
def searchF (key : String) : Nat → BNode → Option String
  | _, .leaf ks vs =>
    if lowerIdx key ks < ks.length then
      (if ks.getD (lowerIdx key ks) "" = key then some (vs.getD (lowerIdx key ks) "")
       else none)
    else none
  | 0, .node _ _ => none
  | fuel + 1, .node ks cs => searchF key fuel (cs.getD (upperIdx key ks) (.leaf [] []))

/-- `BPlusTree.get`. -/
def bptGet (t : BNode) (key : String) : Option String := searchF key (bsize t) t

/-- The `KeyError` message of `_delete_from_leaf`. -/
def keyNotFound (key : String) : String := "Key " ++ key ++ " not found in the tree"

/-- Python `list.index(key)` (first occurrence; only called when the key
is present). -/
def idxOfKey (key : String) : List String → Nat
  | [] => 0
  | s :: rest => if s = key then 0 else 1 + idxOfKey key rest

/-- `_delete`.  At a leaf (`_delete_from_leaf`): remove the key/value at
the first occurrence, or raise `KeyError` when absent.  At an internal
node (`_delete_from_internal`): on an exact separator match call the
unimplemented stub `_delete_internal_key` (a no-op — the tree is
returned unchanged, no error); otherwise descend into the child at
`lowerIdx` (`_fix_child` is likewise a stub, and the subsequent index
adjustment has no effect because `child` was bound before it). -/
def pyDeleteF (key : String) : Nat → BNode → Except String BNode
  | _, .leaf ks vs =>
    if key ∈ ks then
      .ok (.leaf (ks.eraseIdx (idxOfKey key ks)) (vs.eraseIdx (idxOfKey key ks)))
    else .error (keyNotFound key)
  | 0, .node ks cs => .ok (.node ks cs)
  | fuel + 1, .node ks cs =>
    let i := lowerIdx key ks
    if i < ks.length ∧ ks.getD i "" = key then .ok (.node ks cs)
    else
      match pyDeleteF key fuel (cs.getD i (.leaf [] [])) with
      | .ok c2 => .ok (.node ks (cs.set i c2))
      | .error e => .error e

/-- `BPlusTree.delete`: run `_delete` on the root, then collapse the root
when it is internal with exactly one child (an exception from `_delete`
propagates first). -/
def bptDelete (t : BNode) (key : String) : Except String BNode :=
  match pyDeleteF key (bsize t) t with
  | .error e => .error e
  | .ok (.node ks cs) =>
    if cs.length = 1 then .ok (cs.getD 0 (.leaf [] [])) else .ok (.node ks cs)
  | .ok (.leaf ks vs) => .ok (.leaf ks vs)

mutual
/-- Every key stored anywhere in the tree (leaf entries and separators). -/
def allKeys : BNode → List String
  | .leaf ks _ => ks
  | .node ks cs => ks ++ allKeysL cs
def allKeysL : List BNode → List String
  | [] => []
  | c :: cs => allKeys c ++ allKeysL cs
end

mutual
/-- Keys holding an entry in a leaf. -/
def leafKeys : BNode → List String
  | .leaf ks _ => ks
  | .node _ cs => leafKeysL cs
def leafKeysL : List BNode → List String
  | [] => []
  | c :: cs => leafKeys c ++ leafKeysL cs
end

mutual
/-- Separator keys stored in internal nodes. -/
def sepKeys : BNode → List String
  | .leaf _ _ => []
  | .node ks cs => ks ++ sepKeysL cs
def sepKeysL : List BNode → List String
  | [] => []
  | c :: cs => sepKeys c ++ sepKeysL cs
end

mutual
/-- Structural well-formedness: every leaf has parallel keys/values,
every internal node has `len(keys) + 1` children. -/
def structOk : BNode → Bool
  | .leaf ks vs => vs.length == ks.length
  | .node ks cs => (cs.length == ks.length + 1) && structOkL cs
def structOkL : List BNode → Bool
  | [] => true
  | c :: cs => structOk c && structOkL cs
end

/-- The tree grown by a sequence of inserts on `BPlusTree(degree)`
(`max_keys = 2*degree - 1`), starting from the empty leaf root. -/
def buildTree (degree : Nat) (ops : List (String × String)) : BNode :=
  ops.foldl (fun t p => bptInsert (2 * degree - 1) t p.1 p.2) (.leaf [] [])

/-! ### List helpers -/

theorem pyInsertAt_length (i : Nat) (a : α) (l : List α) :
    (pyInsertAt i a l).length = l.length + 1 := by
  simp only [pyInsertAt, List.length_append, List.length_take, List.length_cons,
    List.length_drop]
  omega

theorem getD_append_cons (l1 : List α) (a : α) (l2 : List α) (d : α) :
    (l1 ++ a :: l2).getD l1.length d = a := by
  induction l1 with
  | nil => rfl
  | cons x xs ih => simpa using ih

theorem getD_append_lt (l1 l2 : List α) (j : Nat) (d : α) (h : j < l1.length) :
    (l1 ++ l2).getD j d = l1.getD j d := by
  induction l1 generalizing j with
  | nil => simp at h
  | cons x xs ih =>
    cases j with
    | zero => rfl
    | succ j2 =>
      simp only [List.length_cons] at h
      simpa using ih j2 (by omega)

theorem getD_take (l : List α) (i j : Nat) (d : α) (h : j < i) :
    (l.take i).getD j d = l.getD j d := by
  induction l generalizing i j with
  | nil => simp
  | cons x xs ih =>
    cases i with
    | zero => omega
    | succ i2 =>
      cases j with
      | zero => rfl
      | succ j2 => simpa using ih i2 j2 (by omega)

theorem getD_mem_or (l : List α) (i : Nat) (d : α) :
    l.getD i d ∈ l ∨ l.getD i d = d := by
  induction l generalizing i with
  | nil => right; cases i <;> rfl
  | cons x xs ih =>
    cases i with
    | zero => left; simp [List.getD]
    | succ j =>
      rcases ih j with h | h
      · left
        exact List.mem_cons_of_mem x (by simpa using h)
      · right
        simpa using h

theorem getD_mem_of_lt (l : List α) (i : Nat) (d : α) (h : i < l.length) :
    l.getD i d ∈ l := by
  induction l generalizing i with
  | nil => simp at h
  | cons x xs ih =>
    cases i with
    | zero => simp [List.getD]
    | succ j =>
      simp only [List.length_cons] at h
      exact List.mem_cons_of_mem x (by simpa using ih j (by omega))

theorem getD_set_self (l : List α) (i : Nat) (a d : α) (h : i < l.length) :
    (l.set i a).getD i d = a := by
  induction l generalizing i with
  | nil => simp at h
  | cons x xs ih =>
    cases i with
    | zero => rfl
    | succ j =>
      simp only [List.length_cons] at h
      simpa using ih j (by omega)

theorem pyInsertAt_getD_self (i : Nat) (a : α) (l : List α) (d : α)
    (h : i ≤ l.length) :
    (pyInsertAt i a l).getD i d = a := by
  have hlen : (l.take i).length = i := by simp; omega
  calc (pyInsertAt i a l).getD i d
      = (l.take i ++ a :: l.drop i).getD (l.take i).length d := by rw [hlen]; rfl
    _ = a := getD_append_cons (l.take i) a (l.drop i) d

theorem pyInsertAt_getD_lt (i j : Nat) (a : α) (l : List α) (d : α)
    (hj : j < i) (hl : j < l.length) :
    (pyInsertAt i a l).getD j d = l.getD j d := by
  have h1 : j < (l.take i).length := by simp; omega
  rw [pyInsertAt, getD_append_lt (l.take i) (a :: l.drop i) j d h1,
    getD_take l i j d hj]

theorem mem_pyInsertAt (i : Nat) (a x : α) (l : List α)
    (h : x ∈ pyInsertAt i a l) : x = a ∨ x ∈ l := by
  rcases List.mem_append.mp h with h | h
  · exact Or.inr (List.take_subset i l h)
  · rcases List.mem_cons.mp h with h | h
    · exact Or.inl h
    · exact Or.inr (List.drop_subset i l h)

theorem self_mem_pyInsertAt (i : Nat) (a : α) (l : List α) :
    a ∈ pyInsertAt i a l :=
  List.mem_append.mpr (Or.inr (List.mem_cons_self a (l.drop i)))

/-! ### Index-scan lemmas -/

theorem lowerIdx_le_length (key : String) (l : List String) :
    lowerIdx key l ≤ l.length := by
  induction l with
  | nil => simp [lowerIdx]
  | cons s rest ih =>
    by_cases h : ltB s key = true
    · simp [lowerIdx, h]; omega
    · simp [lowerIdx, h]

theorem lowerIdx_take_lt (key : String) (l : List String) :
    ∀ x ∈ l.take (lowerIdx key l), ltB x key = true := by
  induction l with
  | nil => simp
  | cons s rest ih =>
    by_cases h : ltB s key = true
    · intro x hx
      simp only [lowerIdx, h, if_pos] at hx
      rw [show 1 + lowerIdx key rest = lowerIdx key rest + 1 by omega] at hx
      rcases List.mem_cons.mp (by simpa using hx) with rfl | hx
      · exact h
      · exact ih x hx
    · intro x hx
      simp [lowerIdx, h] at hx

theorem lowerIdx_getD_stop (key : String) (l : List String) (d : String)
    (h : lowerIdx key l < l.length) :
    ltB (l.getD (lowerIdx key l) d) key = false := by
  induction l with
  | nil => simp at h
  | cons s rest ih =>
    by_cases hs : ltB s key = true
    · simp only [lowerIdx, hs, if_pos, List.length_cons] at h ⊢
      rw [show 1 + lowerIdx key rest = lowerIdx key rest + 1 by omega] at h ⊢
      simpa using ih (by omega)
    · simp only [lowerIdx, hs, if_neg, Bool.false_eq_true, not_false_iff]
      simpa using hs

theorem lowerIdx_append_all_lt (key : String) (l1 l2 : List String)
    (h : ∀ x ∈ l1, ltB x key = true) :
    lowerIdx key (l1 ++ l2) = l1.length + lowerIdx key l2 := by
  induction l1 with
  | nil => simp
  | cons s rest ih =>
    have hs := h s (List.mem_cons_self s rest)
    simp only [List.cons_append, lowerIdx, hs, if_pos, List.length_cons, List.append_eq]
    rw [ih (fun x hx => h x (List.mem_cons_of_mem s hx))]
    omega

theorem lowerIdx_cons_stop (key s : String) (l : List String)
    (h : ltB s key = false) : lowerIdx key (s :: l) = 0 := by
  simp [lowerIdx, h]

theorem upperIdx_eq_lowerIdx (key : String) (l : List String)
    (h : ∀ s ∈ l, (s == key) = false) :
    upperIdx key l = lowerIdx key l := by
  induction l with
  | nil => rfl
  | cons s rest ih =>
    have hs : leB s key = ltB s key := by
      simp [leB, h s (List.mem_cons_self s rest)]
    simp only [upperIdx, lowerIdx, hs]
    rw [ih (fun x hx => h x (List.mem_cons_of_mem s hx))]

/-! ### Size lemmas -/

theorem bsize_pos (t : BNode) : 0 < bsize t := by
  cases t <;> simp [bsize]

theorem bsizeL_append (a b : List BNode) :
    bsizeL (a ++ b) = bsizeL a + bsizeL b := by
  induction a with
  | nil => simp [bsizeL]
  | cons c cs ih => simp [bsizeL, ih]; omega

theorem bsize_mem_le (c : BNode) (cs : List BNode) (h : c ∈ cs) :
    bsize c ≤ bsizeL cs := by
  induction cs with
  | nil => simp at h
  | cons x xs ih =>
    rcases List.mem_cons.mp h with rfl | h
    · simp [bsizeL]
    · have := ih h
      simp [bsizeL]
      omega

theorem bsizeL_take_le (cs : List BNode) (n : Nat) :
    bsizeL (cs.take n) ≤ bsizeL cs := by
  conv_rhs => rw [← List.take_append_drop n cs]
  rw [bsizeL_append]
  omega

theorem bsizeL_drop_le (cs : List BNode) (n : Nat) :
    bsizeL (cs.drop n) ≤ bsizeL cs := by
  conv_rhs => rw [← List.take_append_drop n cs]
  rw [bsizeL_append]
  omega

theorem bsize_split_left_le (c : BNode) : bsize (splitResult c).2.1 ≤ bsize c := by
  cases c with
  | leaf ks vs => simp [splitResult, bsize]
  | node ks cs =>
    simp only [splitResult, bsize]
    have := bsizeL_take_le cs (ks.length / 2 + 1)
    omega

theorem bsize_split_right_le (c : BNode) : bsize (splitResult c).2.2 ≤ bsize c := by
  cases c with
  | leaf ks vs => simp [splitResult, bsize]
  | node ks cs =>
    simp only [splitResult, bsize]
    have := bsizeL_drop_le cs (ks.length / 2 + 1)
    omega

/-! ### Structural well-formedness lemmas -/

theorem structOk_leaf_iff (ks vs : List String)
    (h : structOk (.leaf ks vs) = true) : vs.length = ks.length := by
  simpa [structOk] using h

theorem structOk_node_iff (ks : List String) (cs : List BNode)
    (h : structOk (.node ks cs) = true) :
    cs.length = ks.length + 1 ∧ structOkL cs = true := by
  simpa [structOk, Bool.and_eq_true] using h

theorem structOkL_mem (cs : List BNode) (c : BNode) (h : structOkL cs = true)
    (hc : c ∈ cs) : structOk c = true := by
  induction cs with
  | nil => simp at hc
  | cons x xs ih =>
    simp only [structOkL, Bool.and_eq_true] at h
    rcases List.mem_cons.mp hc with rfl | hc
    · exact h.1
    · exact ih h.2 hc

theorem structOkL_append (a b : List BNode) :
    structOkL (a ++ b) = (structOkL a && structOkL b) := by
  induction a with
  | nil => simp [structOkL]
  | cons c cs ih => simp [structOkL, ih, Bool.and_assoc]

theorem structOkL_take (cs : List BNode) (n : Nat) (h : structOkL cs = true) :
    structOkL (cs.take n) = true := by
  have := structOkL_append (cs.take n) (cs.drop n)
  rw [List.take_append_drop] at this
  rw [h] at this
  exact (Bool.and_eq_true _ _).mp this.symm |>.1

theorem structOkL_drop (cs : List BNode) (n : Nat) (h : structOkL cs = true) :
    structOkL (cs.drop n) = true := by
  have := structOkL_append (cs.take n) (cs.drop n)
  rw [List.take_append_drop] at this
  rw [h] at this
  exact (Bool.and_eq_true _ _).mp this.symm |>.2

theorem structOkL_set (cs : List BNode) (i : Nat) (x : BNode)
    (h : structOkL cs = true) (hx : structOk x = true) :
    structOkL (cs.set i x) = true := by
  induction cs generalizing i with
  | nil => simpa using h
  | cons c rest ih =>
    simp only [structOkL, Bool.and_eq_true] at h
    cases i with
    | zero => simp [List.set, structOkL, hx, h.2]
    | succ j => simp [List.set, structOkL, h.1, ih j h.2]

theorem structOkL_pyInsertAt (cs : List BNode) (i : Nat) (x : BNode)
    (h : structOkL cs = true) (hx : structOk x = true) :
    structOkL (pyInsertAt i x cs) = true := by
  rw [pyInsertAt, structOkL_append]
  simp only [structOkL, Bool.and_eq_true]
  exact ⟨structOkL_take cs i h, hx, structOkL_drop cs i h⟩

theorem split_structOk (c : BNode) (mk : Nat) (hmk : 1 ≤ mk)
    (hlen : keysLen c = mk) (hok : structOk c = true) :
    structOk (splitResult c).2.1 = true ∧ structOk (splitResult c).2.2 = true := by
  cases c with
  | leaf ks vs =>
    have hv := structOk_leaf_iff ks vs hok
    constructor <;> simp [splitResult, structOk, hv]
  | node ks cs =>
    obtain ⟨hcl, hsl⟩ := structOk_node_iff ks cs hok
    simp only [keysLen] at hlen
    have hsp : ks.length / 2 < ks.length := by omega
    constructor
    · simp only [splitResult, structOk, Bool.and_eq_true, beq_iff_eq]
      exact ⟨by simp; omega, structOkL_take cs _ hsl⟩
    · simp only [splitResult, structOk, Bool.and_eq_true, beq_iff_eq]
      exact ⟨by simp; omega, structOkL_drop cs _ hsl⟩

/-! ### Key-set lemmas -/

theorem allKeysL_append (a b : List BNode) :
    allKeysL (a ++ b) = allKeysL a ++ allKeysL b := by
  induction a with
  | nil => simp [allKeysL]
  | cons c cs ih => simp [allKeysL, ih]

theorem mem_allKeysL_of_mem_child (cs : List BNode) (c : BNode) (x : String)
    (hc : c ∈ cs) (hx : x ∈ allKeys c) : x ∈ allKeysL cs := by
  induction cs with
  | nil => simp at hc
  | cons y ys ih =>
    rcases List.mem_cons.mp hc with rfl | hc
    · exact List.mem_append.mpr (Or.inl hx)
    · exact List.mem_append.mpr (Or.inr (ih hc))

theorem allKeysL_take_subset (cs : List BNode) (n : Nat) (x : String)
    (h : x ∈ allKeysL (cs.take n)) : x ∈ allKeysL cs := by
  have := allKeysL_append (cs.take n) (cs.drop n)
  rw [List.take_append_drop] at this
  rw [this]
  exact List.mem_append.mpr (Or.inl h)

theorem allKeysL_drop_subset (cs : List BNode) (n : Nat) (x : String)
    (h : x ∈ allKeysL (cs.drop n)) : x ∈ allKeysL cs := by
  have := allKeysL_append (cs.take n) (cs.drop n)
  rw [List.take_append_drop] at this
  rw [this]
  exact List.mem_append.mpr (Or.inr h)

theorem allKeysL_set_subset (cs : List BNode) (i : Nat) (y : BNode) (x : String)
    (h : x ∈ allKeysL (cs.set i y)) : x ∈ allKeys y ∨ x ∈ allKeysL cs := by
  induction cs generalizing i with
  | nil =>
    rw [show List.set ([] : List BNode) i y = [] from by cases i <;> rfl] at h
    simp [allKeysL] at h
  | cons c rest ih =>
    cases i with
    | zero =>
      rw [List.set_cons_zero] at h
      simp only [allKeysL] at h
      rcases List.mem_append.mp h with h | h
      · exact Or.inl h
      · exact Or.inr (List.mem_append.mpr (Or.inr h))
    | succ j =>
      rw [List.set_cons_succ] at h
      simp only [allKeysL] at h
      rcases List.mem_append.mp h with h | h
      · exact Or.inr (List.mem_append.mpr (Or.inl h))
      · rcases ih j h with h | h
        · exact Or.inl h
        · exact Or.inr (List.mem_append.mpr (Or.inr h))

theorem allKeysL_pyInsertAt_subset (cs : List BNode) (i : Nat) (y : BNode)
    (x : String) (h : x ∈ allKeysL (pyInsertAt i y cs)) :
    x ∈ allKeys y ∨ x ∈ allKeysL cs := by
  rw [pyInsertAt, allKeysL_append] at h
  rcases List.mem_append.mp h with h | h
  · exact Or.inr (allKeysL_take_subset cs i x h)
  · rcases List.mem_append.mp (by simpa [allKeysL] using h) with h | h
    · exact Or.inl h
    · exact Or.inr (allKeysL_drop_subset cs i x h)

theorem split_median_mem (c : BNode) (h : 1 ≤ keysLen c) :
    (splitResult c).1 ∈ allKeys c := by
  cases c with
  | leaf ks vs =>
    simp only [keysLen] at h
    exact getD_mem_of_lt ks _ "" (by omega)
  | node ks cs =>
    simp only [keysLen] at h
    exact List.mem_append.mpr (Or.inl (getD_mem_of_lt ks _ "" (by omega)))

theorem allKeys_split_left_subset (c : BNode) (x : String)
    (h : x ∈ allKeys (splitResult c).2.1) : x ∈ allKeys c := by
  cases c with
  | leaf ks vs => exact List.take_subset _ ks h
  | node ks cs =>
    rcases List.mem_append.mp h with h | h
    · exact List.mem_append.mpr (Or.inl (List.take_subset _ ks h))
    · exact List.mem_append.mpr (Or.inr (allKeysL_take_subset cs _ x h))

theorem allKeys_split_right_subset (c : BNode) (x : String)
    (h : x ∈ allKeys (splitResult c).2.2) : x ∈ allKeys c := by
  cases c with
  | leaf ks vs => exact List.drop_subset _ ks h
  | node ks cs =>
    rcases List.mem_append.mp h with h | h
    · exact List.mem_append.mpr (Or.inl (List.drop_subset _ ks h))
    · exact List.mem_append.mpr (Or.inr (allKeysL_drop_subset cs _ x h))

/-! ### Insert preserves structure and introduces only the new key -/

theorem insertNonFullF_structOk (mk : Nat) (key value : String) (hmk : 1 ≤ mk) :
    ∀ (fuel : Nat) (t : BNode), structOk t = true →
      structOk (insertNonFullF mk key value fuel t) = true := by
  intro fuel
  induction fuel with
  | zero =>
    intro t ht
    cases t with
    | leaf ks vs =>
      have hv := structOk_leaf_iff ks vs ht
      simp [insertNonFullF, structOk, pyInsertAt_length, hv]
    | node ks cs => simpa [insertNonFullF] using ht
  | succ f ih =>
    intro t ht
    cases t with
    | leaf ks vs =>
      have hv := structOk_leaf_iff ks vs ht
      simp [insertNonFullF, structOk, pyInsertAt_length, hv]
    | node ks cs =>
      obtain ⟨hcl, hsl⟩ := structOk_node_iff ks cs ht
      have hi : lowerIdx key ks < cs.length := by
        have := lowerIdx_le_length key ks
        omega
      have hcmem : cs.getD (lowerIdx key ks) (.leaf [] []) ∈ cs :=
        getD_mem_of_lt cs _ _ hi
      have hcok : structOk (cs.getD (lowerIdx key ks) (.leaf [] [])) = true :=
        structOkL_mem cs _ hsl hcmem
      by_cases hfull : keysLen (cs.getD (lowerIdx key ks) (.leaf [] [])) = mk
      · obtain ⟨hL, hR⟩ := split_structOk _ mk hmk hfull hcok
        simp only [insertNonFullF, hfull, if_pos]
        by_cases hlt :
            ltB (splitResult (cs.getD (lowerIdx key ks) (.leaf [] []))).1 key = true
        · rw [if_pos hlt]
          simp only [structOk, Bool.and_eq_true, beq_iff_eq]
          refine ⟨?_, structOkL_pyInsertAt _ _ _ (structOkL_set cs _ _ hsl hL) (ih _ hR)⟩
          rw [pyInsertAt_length, pyInsertAt_length, List.length_set]
          omega
        · rw [if_neg hlt]
          simp only [structOk, Bool.and_eq_true, beq_iff_eq]
          refine ⟨?_, structOkL_pyInsertAt _ _ _ (structOkL_set cs _ _ hsl (ih _ hL)) hR⟩
          rw [pyInsertAt_length, pyInsertAt_length, List.length_set]
          omega
      · simp only [insertNonFullF, hfull, if_neg, not_false_iff]
        simp only [structOk, Bool.and_eq_true, beq_iff_eq]
        exact ⟨by rw [List.length_set]; omega, structOkL_set cs _ _ hsl (ih _ hcok)⟩

theorem insertNonFullF_allKeys (mk : Nat) (key value : String) (hmk : 1 ≤ mk) :
    ∀ (fuel : Nat) (t : BNode) (x : String),
      x ∈ allKeys (insertNonFullF mk key value fuel t) → x = key ∨ x ∈ allKeys t := by
  intro fuel
  induction fuel with
  | zero =>
    intro t x hx
    cases t with
    | leaf ks vs =>
      simp only [insertNonFullF, allKeys] at hx
      exact mem_pyInsertAt _ _ _ _ hx
    | node ks cs => exact Or.inr (by simpa [insertNonFullF] using hx)
  | succ f ih =>
    intro t x hx
    cases t with
    | leaf ks vs =>
      simp only [insertNonFullF, allKeys] at hx
      exact mem_pyInsertAt _ _ _ _ hx
    | node ks cs =>
      by_cases hfull : keysLen (cs.getD (lowerIdx key ks) (.leaf [] [])) = mk
      · have hcmem : cs.getD (lowerIdx key ks) (.leaf [] []) ∈ cs := by
          rcases getD_mem_or cs (lowerIdx key ks) (.leaf [] []) with h | h
          · exact h
          · rw [h] at hfull
            simp [keysLen] at hfull
            omega
        have hmed : (splitResult (cs.getD (lowerIdx key ks) (.leaf [] []))).1 ∈
            allKeys (cs.getD (lowerIdx key ks) (.leaf [] [])) := by
          apply split_median_mem
          omega
        have hmedin : (splitResult (cs.getD (lowerIdx key ks) (.leaf [] []))).1 ∈
            allKeysL cs := mem_allKeysL_of_mem_child cs _ _ hcmem hmed
        simp only [insertNonFullF, hfull, if_pos] at hx
        by_cases hlt :
            ltB (splitResult (cs.getD (lowerIdx key ks) (.leaf [] []))).1 key = true
        · rw [if_pos hlt] at hx
          simp only [allKeys] at hx
          rcases List.mem_append.mp hx with hx | hx
          · rcases mem_pyInsertAt _ _ _ _ hx with rfl | hx
            · exact Or.inr (List.mem_append.mpr (Or.inr hmedin))
            · exact Or.inr (List.mem_append.mpr (Or.inl hx))
          · rcases allKeysL_pyInsertAt_subset _ _ _ _ hx with hx | hx
            · rcases ih _ x hx with h | h
              · exact Or.inl h
              · exact Or.inr (List.mem_append.mpr (Or.inr
                  (mem_allKeysL_of_mem_child cs _ _ hcmem
                    (allKeys_split_right_subset _ x h))))
            · rcases allKeysL_set_subset _ _ _ _ hx with hx | hx
              · exact Or.inr (List.mem_append.mpr (Or.inr
                  (mem_allKeysL_of_mem_child cs _ _ hcmem
                    (allKeys_split_left_subset _ x hx))))
              · exact Or.inr (List.mem_append.mpr (Or.inr hx))
        · rw [if_neg hlt] at hx
          simp only [allKeys] at hx
          rcases List.mem_append.mp hx with hx | hx
          · rcases mem_pyInsertAt _ _ _ _ hx with rfl | hx
            · exact Or.inr (List.mem_append.mpr (Or.inr hmedin))
            · exact Or.inr (List.mem_append.mpr (Or.inl hx))
          · rcases allKeysL_pyInsertAt_subset _ _ _ _ hx with hx | hx
            · exact Or.inr (List.mem_append.mpr (Or.inr
                (mem_allKeysL_of_mem_child cs _ _ hcmem
                  (allKeys_split_right_subset _ x hx))))
            · rcases allKeysL_set_subset _ _ _ _ hx with hx | hx
              · rcases ih _ x hx with h | h
                · exact Or.inl h
                · exact Or.inr (List.mem_append.mpr (Or.inr
                    (mem_allKeysL_of_mem_child cs _ _ hcmem
                      (allKeys_split_left_subset _ x h))))
              · exact Or.inr (List.mem_append.mpr (Or.inr hx))
      · simp only [insertNonFullF, hfull, if_neg, not_false_iff] at hx
        simp only [allKeys] at hx
        rcases List.mem_append.mp hx with hx | hx
        · exact Or.inr (List.mem_append.mpr (Or.inl hx))
        · rcases allKeysL_set_subset _ _ _ _ hx with hx | hx
          · rcases ih _ x hx with h | h
            · exact Or.inl h
            · rcases getD_mem_or cs (lowerIdx key ks) (.leaf [] []) with hc | hc
              · exact Or.inr (List.mem_append.mpr (Or.inr
                  (mem_allKeysL_of_mem_child cs _ _ hc h)))
              · rw [hc] at h
                simp [allKeys] at h
          · exact Or.inr (List.mem_append.mpr (Or.inr hx))

theorem bptInsert_structOk (mk : Nat) (key value : String) (hmk : 1 ≤ mk)
    (t : BNode) (ht : structOk t = true) :
    structOk (bptInsert mk t key value) = true := by
  unfold bptInsert
  by_cases hf : keysLen t = mk
  · rw [if_pos hf]
    obtain ⟨hL, hR⟩ := split_structOk t mk hmk hf ht
    apply insertNonFullF_structOk mk key value hmk
    simp [structOk, structOkL, hL, hR]
  · rw [if_neg hf]
    exact insertNonFullF_structOk mk key value hmk _ t ht

theorem bptInsert_allKeys (mk : Nat) (key value : String) (hmk : 1 ≤ mk)
    (t : BNode) (x : String) (hx : x ∈ allKeys (bptInsert mk t key value)) :
    x = key ∨ x ∈ allKeys t := by
  unfold bptInsert at hx
  by_cases hf : keysLen t = mk
  · rw [if_pos hf] at hx
    rcases insertNonFullF_allKeys mk key value hmk _ _ x hx with h | h
    · exact Or.inl h
    · simp only [allKeys, allKeysL] at h
      rcases (by simpa using h :
          x = (splitResult t).1 ∨ x ∈ allKeys (splitResult t).2.1 ∨
            x ∈ allKeys (splitResult t).2.2) with rfl | h | h
      · exact Or.inr (split_median_mem t (by omega))
      · exact Or.inr (allKeys_split_left_subset t x h)
      · exact Or.inr (allKeys_split_right_subset t x h)
  · rw [if_neg hf] at hx
    exact insertNonFullF_allKeys mk key value hmk _ t x hx

theorem foldBpt_inv (mk : Nat) (hmk : 1 ≤ mk) (ops : List (String × String)) :
    ∀ t : BNode, structOk t = true →
      structOk (ops.foldl (fun t p => bptInsert mk t p.1 p.2) t) = true ∧
      ∀ x ∈ allKeys (ops.foldl (fun t p => bptInsert mk t p.1 p.2) t),
        x ∈ allKeys t ∨ x ∈ ops.map Prod.fst := by
  induction ops with
  | nil => intro t ht; exact ⟨ht, fun x hx => Or.inl hx⟩
  | cons p rest ih =>
    intro t ht
    have hstep : structOk (bptInsert mk t p.1 p.2) = true :=
      bptInsert_structOk mk p.1 p.2 hmk t ht
    obtain ⟨h1, h2⟩ := ih (bptInsert mk t p.1 p.2) hstep
    refine ⟨h1, fun x hx => ?_⟩
    rcases h2 x hx with h | h
    · rcases bptInsert_allKeys mk p.1 p.2 hmk t x h with rfl | h
      · exact Or.inr (by simp)
      · exact Or.inl h
    · exact Or.inr (by simp [h])

theorem buildTree_inv (degree : Nat) (hdeg : 1 ≤ degree)
    (ops : List (String × String)) :
    structOk (buildTree degree ops) = true ∧
    ∀ x ∈ allKeys (buildTree degree ops), x ∈ ops.map Prod.fst := by
  have hmk : 1 ≤ 2 * degree - 1 := by omega
  obtain ⟨h1, h2⟩ := foldBpt_inv (2 * degree - 1) hmk ops (.leaf [] []) (by simp [structOk])
  refine ⟨h1, fun x hx => ?_⟩
  rcases h2 x hx with h | h
  · simp [allKeys] at h
  · exact h

/-! ### Retrieval of a freshly inserted key -/

theorem lexLt_irrefl (l : List Char) : lexLt l l = false := by
  induction l with
  | nil => rfl
  | cons c cs ih => simp [lexLt, ih]

theorem ltB_irrefl (a : String) : ltB a a = false := lexLt_irrefl a.data

theorem drop_eq_getD_cons (l : List α) (i : Nat) (d : α) (h : i < l.length) :
    l.drop i = l.getD i d :: l.drop (i + 1) := by
  induction l generalizing i with
  | nil => simp at h
  | cons x xs ih =>
    cases i with
    | zero => rfl
    | succ j =>
      simp only [List.length_cons] at h
      simpa using ih j (by omega)

theorem lowerIdx_drop_self (key : String) (ks : List String) :
    lowerIdx key (ks.drop (lowerIdx key ks)) = 0 := by
  by_cases h : lowerIdx key ks < ks.length
  · rw [drop_eq_getD_cons ks (lowerIdx key ks) "" h]
    exact lowerIdx_cons_stop key _ _ (lowerIdx_getD_stop key ks "" h)
  · rw [List.drop_eq_nil_of_le (by omega)]
    rfl

theorem bsizeL_pyInsertAt (i : Nat) (x : BNode) (l : List BNode) :
    bsizeL (pyInsertAt i x l) = bsize x + bsizeL l := by
  have hl : bsizeL (l.take i) + bsizeL (l.drop i) = bsizeL l := by
    rw [← bsizeL_append, List.take_append_drop]
  rw [pyInsertAt, bsizeL_append]
  simp only [bsizeL]
  omega

theorem bsizeL_set_ge (l : List BNode) (i : Nat) (x : BNode) (h : i < l.length) :
    bsize x ≤ bsizeL (l.set i x) :=
  bsize_mem_le x _ (List.mem_set l i h x)

/-- The key lemma behind (the corrected) claim C1: inserting a key that
occurs nowhere in the tree — neither as a leaf entry nor as a separator —
makes `_search` return the freshly inserted value.  Fuel-parametric so
that the wrappers `bptInsert`/`bptGet` can instantiate it. -/
theorem searchF_insertNonFullF (mk : Nat) (key value : String) (hmk : 1 ≤ mk) :
    ∀ (fI : Nat) (t : BNode), bsize t ≤ fI → structOk t = true →
      (∀ x ∈ allKeys t, (x == key) = false) →
      ∀ (fS : Nat), bsize (insertNonFullF mk key value fI t) ≤ fS →
        searchF key fS (insertNonFullF mk key value fI t) = some value := by
  intro fI
  induction fI with
  | zero =>
    intro t hf
    have := bsize_pos t
    omega
  | succ f ih =>
    intro t hfI hok hfresh fS hfS
    cases t with
    | leaf ks vs =>
      have hv := structOk_leaf_iff ks vs hok
      have hle := lowerIdx_le_length key ks
      have hidx : lowerIdx key (pyInsertAt (lowerIdx key ks) key ks) = lowerIdx key ks := by
        rw [pyInsertAt,
          lowerIdx_append_all_lt key _ _ (lowerIdx_take_lt key ks),
          lowerIdx_cons_stop key key _ (ltB_irrefl key)]
        simp
        omega
      show searchF key fS (.leaf (pyInsertAt (lowerIdx key ks) key ks)
        (pyInsertAt (lowerIdx key ks) value vs)) = some value
      have hlen2 : lowerIdx key ks < (pyInsertAt (lowerIdx key ks) key ks).length := by
        rw [pyInsertAt_length]
        omega
      have hget : (pyInsertAt (lowerIdx key ks) key ks).getD (lowerIdx key ks) "" = key :=
        pyInsertAt_getD_self _ key ks "" hle
      have hval : (pyInsertAt (lowerIdx key ks) value vs).getD (lowerIdx key ks) "" = value :=
        pyInsertAt_getD_self _ value vs "" (by omega)
      cases fS with
      | zero =>
        simp only [searchF, hidx]
        rw [if_pos hlen2, if_pos hget, hval]
      | succ fS2 =>
        simp only [searchF, hidx]
        rw [if_pos hlen2, if_pos hget, hval]
    | node ks cs =>
      obtain ⟨hcl, hsl⟩ := structOk_node_iff ks cs hok
      have hle := lowerIdx_le_length key ks
      have hi : lowerIdx key ks < cs.length := by omega
      have hkeysne : ∀ s ∈ ks, (s == key) = false := fun s hs =>
        hfresh s (List.mem_append.mpr (Or.inl hs))
      have hcmem : cs.getD (lowerIdx key ks) (.leaf [] []) ∈ cs :=
        getD_mem_of_lt cs _ _ hi
      have hcok : structOk (cs.getD (lowerIdx key ks) (.leaf [] [])) = true :=
        structOkL_mem cs _ hsl hcmem
      have hcsize : bsize (cs.getD (lowerIdx key ks) (.leaf [] [])) ≤ f := by
        have h1 := bsize_mem_le _ cs hcmem
        simp only [bsize] at hfI
        omega
      have hcfresh : ∀ x ∈ allKeys (cs.getD (lowerIdx key ks) (.leaf [] [])),
          (x == key) = false := fun x hx =>
        hfresh x (List.mem_append.mpr (Or.inr (mem_allKeysL_of_mem_child cs _ _ hcmem hx)))
      by_cases hfull : keysLen (cs.getD (lowerIdx key ks) (.leaf [] [])) = mk
      · obtain ⟨hL, hR⟩ := split_structOk _ mk hmk hfull hcok
        have hmidmem : (splitResult (cs.getD (lowerIdx key ks) (.leaf [] []))).1 ∈
            allKeys (cs.getD (lowerIdx key ks) (.leaf [] [])) :=
          split_median_mem _ (by omega)
        have hmidne : ((splitResult (cs.getD (lowerIdx key ks) (.leaf [] []))).1 == key) =
            false := hcfresh _ hmidmem
        have hks2ne : ∀ s ∈ pyInsertAt (lowerIdx key ks)
            (splitResult (cs.getD (lowerIdx key ks) (.leaf [] []))).1 ks,
            (s == key) = false := by
          intro s hs
          rcases mem_pyInsertAt _ _ _ _ hs with rfl | hs
          · exact hmidne
          · exact hkeysne s hs
        by_cases hlt :
            ltB (splitResult (cs.getD (lowerIdx key ks) (.leaf [] []))).1 key = true
        · -- key goes to the new right node, which sits at index i+1
          have hres : insertNonFullF mk key value (f + 1) (.node ks cs) =
              .node (pyInsertAt (lowerIdx key ks)
                  (splitResult (cs.getD (lowerIdx key ks) (.leaf [] []))).1 ks)
                (pyInsertAt (lowerIdx key ks + 1)
                  (insertNonFullF mk key value f
                    (splitResult (cs.getD (lowerIdx key ks) (.leaf [] []))).2.2)
                  (cs.set (lowerIdx key ks)
                    (splitResult (cs.getD (lowerIdx key ks) (.leaf [] []))).2.1)) := by
            simp only [insertNonFullF, hfull, if_pos]
            rw [if_pos hlt]
          rw [hres] at hfS ⊢
          have hidx2 : lowerIdx key (pyInsertAt (lowerIdx key ks)
              (splitResult (cs.getD (lowerIdx key ks) (.leaf [] []))).1 ks) =
              lowerIdx key ks + 1 := by
            rw [pyInsertAt,
              lowerIdx_append_all_lt key _ _ (lowerIdx_take_lt key ks),
              lowerIdx, hlt, lowerIdx_drop_self]
            simp
            omega
          cases fS with
          | zero =>
            simp only [bsize] at hfS
            omega
          | succ fS2 =>
            simp only [searchF]
            rw [upperIdx_eq_lowerIdx key _ hks2ne, hidx2,
              pyInsertAt_getD_self _ _ _ _ (by rw [List.length_set]; omega)]
            apply ih _ (le_trans (bsize_split_right_le _) hcsize) hR
              (fun x hx => hcfresh x (allKeys_split_right_subset _ x hx))
            simp only [bsize, bsizeL_pyInsertAt] at hfS
            omega
        · -- key goes to the left half, which stays at index i
          have hres : insertNonFullF mk key value (f + 1) (.node ks cs) =
              .node (pyInsertAt (lowerIdx key ks)
                  (splitResult (cs.getD (lowerIdx key ks) (.leaf [] []))).1 ks)
                (pyInsertAt (lowerIdx key ks + 1)
                  (splitResult (cs.getD (lowerIdx key ks) (.leaf [] []))).2.2
                  (cs.set (lowerIdx key ks)
                    (insertNonFullF mk key value f
                      (splitResult (cs.getD (lowerIdx key ks) (.leaf [] []))).2.1))) := by
            simp only [insertNonFullF, hfull, if_pos]
            rw [if_neg hlt]
          rw [hres] at hfS ⊢
          have hidx2 : lowerIdx key (pyInsertAt (lowerIdx key ks)
              (splitResult (cs.getD (lowerIdx key ks) (.leaf [] []))).1 ks) =
              lowerIdx key ks := by
            rw [pyInsertAt,
              lowerIdx_append_all_lt key _ _ (lowerIdx_take_lt key ks),
              lowerIdx_cons_stop key _ _ (by simpa using hlt)]
            simp
            omega
          cases fS with
          | zero =>
            simp only [bsize] at hfS
            omega
          | succ fS2 =>
            simp only [searchF]
            rw [upperIdx_eq_lowerIdx key _ hks2ne, hidx2,
              pyInsertAt_getD_lt _ _ _ _ _ (by omega) (by rw [List.length_set]; omega),
              getD_set_self cs _ _ _ hi]
            apply ih _ (le_trans (bsize_split_left_le _) hcsize) hL
              (fun x hx => hcfresh x (allKeys_split_left_subset _ x hx))
            simp only [bsize, bsizeL_pyInsertAt] at hfS
            have hmem : bsize (insertNonFullF mk key value f
                (splitResult (cs.getD (lowerIdx key ks) (.leaf [] []))).2.1) ≤
                bsizeL (cs.set (lowerIdx key ks)
                  (insertNonFullF mk key value f
                    (splitResult (cs.getD (lowerIdx key ks) (.leaf [] []))).2.1)) :=
              bsizeL_set_ge cs _ _ hi
            omega
      · have hres : insertNonFullF mk key value (f + 1) (.node ks cs) =
            .node ks (cs.set (lowerIdx key ks)
              (insertNonFullF mk key value f (cs.getD (lowerIdx key ks) (.leaf [] [])))) := by
          simp only [insertNonFullF, hfull, if_neg, not_false_iff]
        rw [hres] at hfS ⊢
        cases fS with
        | zero =>
          simp only [bsize] at hfS
          omega
        | succ fS2 =>
          simp only [searchF]
          rw [upperIdx_eq_lowerIdx key ks hkeysne,
            getD_set_self cs _ _ _ hi]
          apply ih _ hcsize hcok hcfresh
          simp only [bsize] at hfS
          have hmem : bsize (insertNonFullF mk key value f
              (cs.getD (lowerIdx key ks) (.leaf [] []))) ≤
              bsizeL (cs.set (lowerIdx key ks)
                (insertNonFullF mk key value f (cs.getD (lowerIdx key ks) (.leaf [] [])))) :=
            bsizeL_set_ge cs _ _ hi
          omega

theorem bptGet_bptInsert_fresh (mk : Nat) (hmk : 1 ≤ mk) (t : BNode)
    (ht : structOk t = true) (key value : String)
    (hfresh : ∀ x ∈ allKeys t, (x == key) = false) :
    bptGet (bptInsert mk t key value) key = some value := by
  unfold bptGet bptInsert
  by_cases hf : keysLen t = mk
  · rw [if_pos hf]
    obtain ⟨hL, hR⟩ := split_structOk t mk hmk hf ht
    apply searchF_insertNonFullF mk key value hmk _ _ le_rfl
    · simp [structOk, structOkL, hL, hR]
    · intro x hx
      simp only [allKeys, allKeysL] at hx
      rcases (by simpa using hx :
          x = (splitResult t).1 ∨ x ∈ allKeys (splitResult t).2.1 ∨
            x ∈ allKeys (splitResult t).2.2) with rfl | hx | hx
      · exact hfresh _ (split_median_mem t (by omega))
      · exact hfresh x (allKeys_split_left_subset t x hx)
      · exact hfresh x (allKeys_split_right_subset t x hx)
    · exact le_rfl
  · rw [if_neg hf]
    exact searchF_insertNonFullF mk key value hmk _ t le_rfl ht hfresh _ le_rfl

/-! ## Claim C1: insert-then-get -/

/-- C1 counterexample.  On `BPlusTree(degree=3)` insert `"1".."6"` (the
root splits with separator `"3"`), then re-insert `"3"` with a new
value: `_insert_non_full` descends with `>` (left of the equal
separator) while `_search` descends with `>=` (right of it), so `get("3")`
returns the old value `"v3"`, not the just-inserted `"new"`. -/
theorem C1_counterexample :
    bptGet (bptInsert 5 (buildTree 3
      [("1", "v1"), ("2", "v2"), ("3", "v3"), ("4", "v4"), ("5", "v5"), ("6", "v6")])
      "3" "new") "3" ≠ some "new" ∧
    bptGet (bptInsert 5 (buildTree 3
      [("1", "v1"), ("2", "v2"), ("3", "v3"), ("4", "v4"), ("5", "v5"), ("6", "v6")])
      "3" "new") "3" = some "v3" := by decide

/-- C1 (corrected).  Immediately after `insert(k, v)`, `get(k)` returns
`v`: for the LSM engine this holds in every state, so for every prior
sequence of inserts including ones that already inserted `k`; for the
B+Tree engine it holds for every prior sequence of inserts whose keys
all differ from `k` (re-inserting an existing key can return the older
value once the tree has split, as the counterexample shows). -/
theorem C1_insert_get :
    (∀ (s : LSMState) (k v : String), lsmGet (lsmInsert false s k v).1 k = some v) ∧
    (∀ (degree : Nat) (ops : List (String × String)) (k v : String),
      1 ≤ degree → k ∉ ops.map Prod.fst →
      bptGet (bptInsert (2 * degree - 1) (buildTree degree ops) k v) k = some v) := by
  refine ⟨lsmGet_insert_self, fun degree ops k v hdeg hk => ?_⟩
  obtain ⟨hok, hsub⟩ := buildTree_inv degree hdeg ops
  apply bptGet_bptInsert_fresh (2 * degree - 1) (by omega) _ hok
  intro x hx
  have hne : x ≠ k := fun he => hk (he ▸ hsub x hx)
  simpa using hne

/-- Witness for C1 at concrete inputs. -/
theorem C1_witness :
    (1 ≤ 3 ∧ "2" ∉ ([("1", "x")].map Prod.fst)) ∧
    bptGet (bptInsert 5 (buildTree 3 [("1", "x")]) "2" "y") "2" = some "y" ∧
    lsmGet (lsmInsert false (freshLSM 5) "a" "1").1 "a" = some "1" :=
  ⟨⟨by decide, by decide⟩,
    C1_insert_get.2 3 [("1", "x")] "2" "y" (by decide) (by decide),
    C1_insert_get.1 (freshLSM 5) "a" "1"⟩

/-! ## Claim C5: delete of an absent key -/

theorem mem_leafKeysL_of_mem_child (cs : List BNode) (c : BNode) (x : String)
    (hc : c ∈ cs) (hx : x ∈ leafKeys c) : x ∈ leafKeysL cs := by
  induction cs with
  | nil => simp at hc
  | cons y ys ih =>
    rcases List.mem_cons.mp hc with rfl | hc
    · exact List.mem_append.mpr (Or.inl hx)
    · exact List.mem_append.mpr (Or.inr (ih hc))

theorem mem_sepKeysL_of_mem_child (cs : List BNode) (c : BNode) (x : String)
    (hc : c ∈ cs) (hx : x ∈ sepKeys c) : x ∈ sepKeysL cs := by
  induction cs with
  | nil => simp at hc
  | cons y ys ih =>
    rcases List.mem_cons.mp hc with rfl | hc
    · exact List.mem_append.mpr (Or.inl hx)
    · exact List.mem_append.mpr (Or.inr (ih hc))

theorem pyDeleteF_absent (key : String) :
    ∀ (fuel : Nat) (t : BNode), bsize t ≤ fuel → structOk t = true →
      key ∉ leafKeys t → key ∉ sepKeys t →
      pyDeleteF key fuel t = .error (keyNotFound key) := by
  intro fuel
  induction fuel with
  | zero =>
    intro t hf
    have := bsize_pos t
    omega
  | succ f ih =>
    intro t hfI hok hleaf hsep
    cases t with
    | leaf ks vs =>
      have : key ∉ ks := hleaf
      simp [pyDeleteF, this]
    | node ks cs =>
      obtain ⟨hcl, hsl⟩ := structOk_node_iff ks cs hok
      have hle := lowerIdx_le_length key ks
      have hi : lowerIdx key ks < cs.length := by omega
      have hkns : key ∉ ks := fun h => hsep (List.mem_append.mpr (Or.inl h))
      have hcmem : cs.getD (lowerIdx key ks) (.leaf [] []) ∈ cs :=
        getD_mem_of_lt cs _ _ hi
      have hnotsep : ¬ (lowerIdx key ks < ks.length ∧
          ks.getD (lowerIdx key ks) "" = key) := by
        rintro ⟨h1, h2⟩
        exact hkns (h2 ▸ getD_mem_of_lt ks _ "" h1)
      have hrec := ih (cs.getD (lowerIdx key ks) (.leaf [] []))
        (by
          have := bsize_mem_le _ cs hcmem
          simp only [bsize] at hfI
          omega)
        (structOkL_mem cs _ hsl hcmem)
        (fun h => hleaf (mem_leafKeysL_of_mem_child cs _ _ hcmem h))
        (fun h => hsep (List.mem_append.mpr (Or.inr
          (mem_sepKeysL_of_mem_child cs _ _ hcmem h))))
      simp only [pyDeleteF, hnotsep, if_neg, not_false_iff, hrec]

/-- C5 counterexample tree: separator `"3"` in the root, but no leaf
entry for `"3"` — delete of `"3"` takes the stubbed
`_delete_internal_key` path and returns silently instead of raising. -/
def c5Tree : BNode :=
  .node ["3"] [.leaf ["1", "2"] ["a", "b"], .leaf ["4", "5"] ["c", "d"]]

/-- Whether an `Except` result is a normal return (no exception). -/
def isOkE : Except String BNode → Bool
  | .ok _ => true
  | .error _ => false

/-- C5 counterexample: `"3"` has no entry in any leaf of `c5Tree`, yet
`delete("3")` reports no error (the exact-separator branch of
`_delete_from_internal` is the unimplemented `pass` stub). -/
theorem C5_counterexample :
    "3" ∉ leafKeys c5Tree ∧ isOkE (bptDelete c5Tree "3") = true := by decide

/-- C5 (corrected).  Deleting a key that has no entry in any leaf raises
`KeyError("Key ... not found in the tree")` provided the key also
differs from every separator key stored in an internal node; an absent
key equal to a separator is silently ignored instead (stubbed
`_delete_internal_key`), as the counterexample shows. -/
theorem C5_delete_absent (t : BNode) (key : String) (hok : structOk t = true)
    (hleaf : key ∉ leafKeys t) (hsep : key ∉ sepKeys t) :
    bptDelete t key = .error (keyNotFound key) := by
  unfold bptDelete
  rw [pyDeleteF_absent key (bsize t) t le_rfl hok hleaf hsep]

/-- Witness for C5 at a concrete input. -/
theorem C5_witness :
    (structOk c5Tree = true ∧ "9" ∉ leafKeys c5Tree ∧ "9" ∉ sepKeys c5Tree) ∧
    bptDelete c5Tree "9" = .error (keyNotFound "9") :=
  ⟨⟨by decide, by decide, by decide⟩,
    C5_delete_absent c5Tree "9" (by decide) (by decide) (by decide)⟩

/-! ## Claim C7: `_split_child` -/

/-- A `Node` of `bplus_tree.py` at the pointer level: `children` and
`next` hold node identities (the arena view suggested by the design
notes), so that the sibling-link rewiring of `_split_child` can be
stated. -/
structure PNode where
  keys : List String
  values : List String
  children : List Nat
  is_leaf : Bool
  next : Option Nat

/-- `_split_child(parent, index)` where `child = parent.children[index]`
and `newId` is the identity of the freshly allocated `Node`: returns the
updated parent, the updated (left) child and the new right node.  A leaf
split moves the upper half of keys/values to the new node, points the
new node's `next` at the old target and the child's `next` at the new
node; an internal split promotes the middle key (the new node gets
`keys[sp+1:]` and `children[sp+1:]`).  The parent gains the middle key
at `index` and the new node's identity at `index + 1`. -/
def splitChildP (parent child : PNode) (index newId : Nat) : PNode × PNode × PNode :=
  let sp := child.keys.length / 2
  let mid := child.keys.getD sp ""
  let pair : PNode × PNode :=
    if child.is_leaf then
      ({ child with
         keys := child.keys.take sp
         values := child.values.take sp
         next := some newId },
       { keys := child.keys.drop sp
         values := child.values.drop sp
         children := []
         is_leaf := true
         next := child.next })
    else
      ({ child with
         keys := child.keys.take sp
         children := child.children.take (sp + 1) },
       { keys := child.keys.drop (sp + 1)
         values := []
         children := child.children.drop (sp + 1)
         is_leaf := false
         next := none })
  ({ parent with
     keys := pyInsertAt index mid parent.keys
     children := pyInsertAt (index + 1) newId parent.children }, pair.1, pair.2)

/-- C7 (confirmed).  Splitting a full child (`max_keys = 2*degree - 1`
keys): the parent gains exactly one separator — the pre-split key at
index `len(keys) // 2`, the median — at position `index`, and exactly
one new child immediately to the right of the split child; both
resulting nodes satisfy `min_keys ≤ len(keys) ≤ max_keys`; for a leaf
split the new right node takes the upper half of keys/values, its
sibling link takes over the old node's link, and the old node's link
points to the new node. -/
theorem C7_split_child (degree : Nat) (parent child : PNode) (index newId : Nat)
    (hdeg : 1 ≤ degree) (hfull : child.keys.length = 2 * degree - 1)
    (hidx : index ≤ parent.keys.length)
    (hcidx : index + 1 ≤ parent.children.length)
    (hvals : child.values.length = child.keys.length) :
    (splitChildP parent child index newId).1.keys.length = parent.keys.length + 1 ∧
    (splitChildP parent child index newId).1.keys.getD index "" =
      child.keys.getD (child.keys.length / 2) "" ∧
    (splitChildP parent child index newId).1.children.length =
      parent.children.length + 1 ∧
    (splitChildP parent child index newId).1.children.getD (index + 1) 0 = newId ∧
    (degree - 1 ≤ (splitChildP parent child index newId).2.1.keys.length ∧
      (splitChildP parent child index newId).2.1.keys.length ≤ 2 * degree - 1) ∧
    (degree - 1 ≤ (splitChildP parent child index newId).2.2.keys.length ∧
      (splitChildP parent child index newId).2.2.keys.length ≤ 2 * degree - 1) ∧
    (child.is_leaf = true →
      (splitChildP parent child index newId).2.2.keys =
        child.keys.drop (child.keys.length / 2) ∧
      (splitChildP parent child index newId).2.2.values =
        child.values.drop (child.keys.length / 2) ∧
      (splitChildP parent child index newId).2.1.keys =
        child.keys.take (child.keys.length / 2) ∧
      (splitChildP parent child index newId).2.1.values =
        child.values.take (child.keys.length / 2) ∧
      (splitChildP parent child index newId).2.2.next = child.next ∧
      (splitChildP parent child index newId).2.1.next = some newId) := by
  by_cases hl : child.is_leaf = true
  · simp only [splitChildP, hl, if_pos]
    refine ⟨pyInsertAt_length _ _ _, pyInsertAt_getD_self _ _ _ _ hidx,
      pyInsertAt_length _ _ _, pyInsertAt_getD_self _ _ _ _ hcidx, ?_, ?_, ?_⟩
    · simp only [List.length_take]
      omega
    · simp only [List.length_drop]
      omega
    · intro _
      exact ⟨trivial, trivial, trivial, trivial, trivial, trivial⟩
  · simp only [splitChildP, hl, if_neg, Bool.false_eq_true, not_false_iff]
    refine ⟨pyInsertAt_length _ _ _, pyInsertAt_getD_self _ _ _ _ hidx,
      pyInsertAt_length _ _ _, pyInsertAt_getD_self _ _ _ _ hcidx, ?_, ?_, ?_⟩
    · simp only [List.length_take]
      omega
    · simp only [List.length_drop]
      omega
    · intro hcon
      exact hcon.elim

/-- C7 concrete inputs: a degree-3 parent with separator `"3"` and a full
leaf child holding `"3".."7"`. -/
def c7Parent : PNode := ⟨["3"], [], [10, 11], false, none⟩

/-- The full leaf child being split in the C7 witness. -/
def c7Child : PNode := ⟨["3", "4", "5", "6", "7"], ["c", "d", "e", "f", "g"], [], true, some 99⟩

/-- Witness for C7 at a concrete input. -/
theorem C7_witness :
    (1 ≤ 3 ∧ c7Child.keys.length = 2 * 3 - 1 ∧ 1 ≤ c7Parent.keys.length ∧
      1 + 1 ≤ c7Parent.children.length ∧
      c7Child.values.length = c7Child.keys.length) ∧
    (splitChildP c7Parent c7Child 1 42).1.keys.length = c7Parent.keys.length + 1 ∧
    (splitChildP c7Parent c7Child 1 42).1.keys.getD 1 "" =
      c7Child.keys.getD (c7Child.keys.length / 2) "" :=
  ⟨⟨by decide, by decide, by decide, by decide, by decide⟩,
    (C7_split_child 3 c7Parent c7Child 1 42 (by decide) (by decide) (by decide)
      (by decide) (by decide)).1,
    (C7_split_child 3 c7Parent c7Child 1 42 (by decide) (by decide) (by decide)
      (by decide) (by decide)).2.1⟩

end DualKV
